import Mathlib

/-!
Shallow embedding of the audiobook-nook transcription/alignment pipeline
(services/pdf/alignment.js, services/pdf/textExtractor.js,
services/pdf/transcription.js, services/pdf/jobQueue.js,
services/transcription/jobQueue.js, routes/pdf.js), with theorems checking
the specification's claims about it.

Numbers (seconds, similarity scores) are modelled as rationals, JavaScript
strings as Lean strings.  The Jaro-Winkler similarity from the external
`natural` library is an uninterpreted parameter `sim` of the alignment
functions.
-/

namespace AudiobookNook

/-- JavaScript `Math.round`: round half toward positive infinity. -/
def jsRound (q : ℚ) : ℤ := ⌊q + 1/2⌋

/-- JavaScript `a || b` on numbers: `b` when `a` is falsy (`0`, also standing
in for `null`/`undefined` fields), else `a`. -/
def jsOr (a b : ℚ) : ℚ := if a = 0 then b else a

/-- The ASCII part of the JavaScript regex class `\s`. -/
def isJsSpace (c : Char) : Bool :=
  c = ' ' || c = '\t' || c = '\n' || c = '\r' || c = Char.ofNat 11 || c = Char.ofNat 12

/-- JavaScript regex class `\w`: `[A-Za-z0-9_]`. -/
def isWordChar (c : Char) : Bool := c.isAlphanum || c = '_'

/-- Collapse maximal runs of spaces to a single space. -/
def squeezeSpaces : List Char → List Char
  | [] => []
  | [c] => [c]
  | a :: b :: rest =>
    if a = ' ' && b = ' ' then squeezeSpaces (b :: rest)
    else a :: squeezeSpaces (b :: rest)

/-- Drop leading and trailing spaces. -/
def trimSpaces (l : List Char) : List Char :=
  ((l.dropWhile (· = ' ')).reverse.dropWhile (· = ' ')).reverse

/-- Model of `.replace(/\s+/g, ' ').trim()`: map each whitespace character to a space,
collapse runs, trim the ends. -/
def collapseWsTrim (s : String) : String :=
  ⟨trimSpaces (squeezeSpaces (s.data.map (fun c => if isJsSpace c then ' ' else c)))⟩

/-- Function `normalizeText` from textExtractor.js: lowercase, strip everything that is
neither `\w` nor `\s`, collapse whitespace, trim. -/
def normalizeText (text : String) : String :=
  collapseWsTrim ⟨(text.data.map Char.toLower).filter (fun c => isWordChar c || isJsSpace c)⟩

/-- Whether `needle` is a prefix of the second list. -/
def listStartsWith : List Char → List Char → Bool
  | [], _ => true
  | _ :: _, [] => false
  | a :: as, b :: bs => a = b && listStartsWith as bs

/-- Whether `needle` occurs as a contiguous run inside the list. -/
def listHasInfix (needle : List Char) : List Char → Bool
  | [] => needle.isEmpty
  | b :: bs => listStartsWith needle (b :: bs) || listHasInfix needle bs

/-- JavaScript `String.prototype.includes`. -/
def jsIncludes (s sub : String) : Bool := listHasInfix sub.data s.data

/-- JavaScript `split(' ')` on the character list (adjacent separators yield
empty fields, the empty string yields one empty field). -/
def splitSpacesAux : List Char → List (List Char)
  | [] => [[]]
  | c :: rest =>
    let r := splitSpacesAux rest
    if c = ' ' then [] :: r
    else (c :: r.headI) :: r.tail

/-- JavaScript `s.split(' ')`. -/
def splitSpaces (s : String) : List String := (splitSpacesAux s.data).map (⟨·⟩)

/-- JavaScript `Array.prototype.join(sep)`. -/
def joinSep (sep : String) : List String → String
  | [] => ""
  | [x] => x
  | x :: y :: rest => x ++ sep ++ joinSep sep (y :: rest)

/-- JavaScript `s.trim()` (over the ASCII whitespace of `isJsSpace`). -/
def jsTrim (s : String) : String :=
  ⟨((s.data.dropWhile isJsSpace).reverse.dropWhile isJsSpace).reverse⟩

/-- A structural `mapIdx`. -/
def mapWithIndex (f : ℕ → α → β) : List α → List β :=
  go 0
where
  go : ℕ → List α → List β
    | _, [] => []
    | i, a :: rest => f i a :: go (i + 1) rest

/-- The first-three-words lookup key of an already-normalized string
(`words.slice(0, 3).join(' ')` after `split(' ')`). -/
def keyOfNormalized (normalized : String) : String :=
  joinSep " " ((splitSpaces normalized).take 3)

/-- A transcript sentence after `transcribeBook` attached chapter and global
times (`{ ...sentence, chapterIndex, globalStart, globalEnd }`). -/
structure ASentence where
  text : String
  start : ℚ
  «end» : ℚ
  chapterIndex : ℕ
  globalStart : ℚ
  globalEnd : ℚ
  deriving Repr, DecidableEq, Inhabited

/-- Output of `transcribeBook`. -/
structure Transcription where
  totalDuration : ℚ
  sentences : List ASentence
  deriving Repr, DecidableEq, Inhabited

/-- One sentence extracted from a PDF page (`{ text, index }`). -/
structure PdfSentence where
  text : String
  index : ℕ
  deriving Repr, DecidableEq, Inhabited

/-- One page of extracted PDF text. -/
structure PdfPage where
  pageNumber : ℕ
  rawText : String
  sentences : List PdfSentence
  deriving Repr, DecidableEq, Inhabited

/-- One entry of the flattened sentence list built by `extractPdfText`. -/
structure FlatSentence where
  id : String
  pageNumber : ℕ
  text : String
  indexInPage : ℕ
  deriving Repr, DecidableEq, Inhabited

/-- Output of `extractPdfText` (also the `pdfText` input of the aligner). -/
structure PdfText where
  hasText : Bool
  pageCount : ℕ
  pages : List PdfPage
  sentences : List FlatSentence
  deriving Repr, DecidableEq, Inhabited

/-- The aligner's internal best-match record (`bestMatch` in
`findBestMatch`), including the matched transcript index. -/
structure MatchInfo where
  transcriptionIndex : ℕ
  chapterIndex : ℕ
  globalStart : ℚ
  globalEnd : ℚ
  confidence : ℚ
  deriving Repr, DecidableEq, Inhabited

/-- The `audio` object stored on an aligned sentence. -/
structure AudioSpan where
  chapterIndex : ℕ
  globalStart : ℚ
  globalEnd : ℚ
  interpolated : Bool
  deriving Repr, DecidableEq, Inhabited

/-- The estimated on-page bounding box from `estimatePosition`. -/
structure PagePosition where
  x : ℤ
  y : ℤ
  width : ℤ
  height : ℤ
  deriving Repr, DecidableEq, Inhabited

/-- One aligned document-sentence record. -/
structure AlignedSentence where
  id : String
  text : String
  position : PagePosition
  audio : Option AudioSpan
  confidence : ℚ
  deriving Repr, DecidableEq, Inhabited

/-- One aligned page. -/
structure AlignedPage where
  pageNumber : ℕ
  sentences : List AlignedSentence
  deriving Repr, DecidableEq, Inhabited

/-- The `metadata` object of an alignment result. -/
structure AlignMetadata where
  pdfSentenceCount : ℕ
  audioSentenceCount : ℕ
  matchedCount : ℕ
  averageConfidence : ℚ
  alignmentType : Option String
  deriving Repr, DecidableEq, Inhabited

/-- An alignment result (`{ data: { pages, metadata }, quality }`). -/
structure AlignmentResult where
  pages : List AlignedPage
  metadata : AlignMetadata
  quality : ℤ
  deriving Repr, DecidableEq, Inhabited

/-- Function `estimatePosition(sentenceIndex, totalSentences)` from alignment.js. -/
def estimatePosition (sentenceIndex totalSentences : ℕ) : PagePosition :=
  let pageHeight : ℚ := 792
  let marginTop : ℚ := 72
  let marginBottom : ℚ := 72
  let contentHeight : ℚ := pageHeight - marginTop - marginBottom
  let lineHeight : ℤ := 14
  let approxY : ℚ := marginTop + ((sentenceIndex : ℚ) / (totalSentences : ℚ)) * contentHeight
  { x := 72, y := jsRound (pageHeight - approxY), width := 468, height := lineHeight }

/-- The index key of a transcript sentence text. -/
def sentenceKey (text : String) : String := keyOfNormalized (normalizeText text)

/-- Function `buildTranscriptionIndex` from alignment.js, viewed as the lookup it
backs: the (in-order) list of transcript indices whose first-three-words key
equals `key`; the empty list models a key miss (`index.get(key) || []`). -/
def buildTranscriptionIndex (sentences : List ASentence) (key : String) : List ℕ :=
  (List.range sentences.length).filter (fun i => sentenceKey ((sentences.getD i default).text) = key)

/-- The fixed minimum similarity threshold of `findBestMatch`. -/
def threshold : ℚ := 7/10

/-- The `bestMatch` record `findBestMatch` builds for candidate `idx`; its
`confidence` is the similarity the loop computes for that candidate. -/
def candidateInfo (sim : String → String → ℚ) (normalizedPdf : String)
    (ts : List ASentence) (idx : ℕ) : MatchInfo :=
  let t := ts.getD idx default
  ⟨idx, t.chapterIndex, t.globalStart, t.globalEnd, sim normalizedPdf (normalizeText t.text)⟩

/-- One iteration of the candidate loop of `findBestMatch`: skip consumed
candidates, accept a candidate that strictly improves the best score and
meets the threshold. -/
def bestMatchStep (sim : String → String → ℚ) (normalizedPdf : String)
    (ts : List ASentence) (matchedSet : List ℕ) (acc : Option MatchInfo × ℚ) (idx : ℕ) :
    Option MatchInfo × ℚ :=
  if idx ∈ matchedSet then acc
  else
    let similarity := (candidateInfo sim normalizedPdf ts idx).confidence
    if acc.2 < similarity ∧ threshold ≤ similarity then
      (some (candidateInfo sim normalizedPdf ts idx), similarity)
    else acc

/-- Function `findBestMatch` from alignment.js, parameterized by the external
Jaro-Winkler similarity `sim`. -/
def findBestMatch (sim : String → String → ℚ) (pdfSentence : String)
    (transcriptionSentences : List ASentence) (matchedSet : List ℕ) : Option MatchInfo :=
  let normalizedPdf := normalizeText pdfSentence
  if normalizedPdf.length < 3 then none
  else
    let searchKey := keyOfNormalized normalizedPdf
    let candidateIndices := buildTranscriptionIndex transcriptionSentences searchKey
    if candidateIndices.isEmpty then none
    else
      (candidateIndices.foldl
        (bestMatchStep sim normalizedPdf transcriptionSentences matchedSet) (none, 0)).1

/-- Accumulator of the fuzzy matching loop in `alignTextToAudio`
(`matchedTranscriptions`, `matchCount`, `totalConfidence`). -/
structure AlignState where
  matched : List ℕ
  matchCount : ℕ
  totalConfidence : ℚ
  deriving Repr, DecidableEq, Inhabited

/-- One iteration of the inner sentence loop of `alignTextToAudio`, keeping
the `alignment` value (the ghost `MatchInfo`) next to the pushed record. -/
def alignSentence (sim : String → String → ℚ) (ts : List ASentence)
    (pageNumber pageSentenceCount : ℕ) (st : AlignState) (s : PdfSentence) :
    AlignState × (AlignedSentence × Option MatchInfo) :=
  let alignment := findBestMatch sim s.text ts st.matched
  let st' := match alignment with
    | some a =>
      { matched := a.transcriptionIndex :: st.matched,
        matchCount := st.matchCount + 1,
        totalConfidence := st.totalConfidence + a.confidence }
    | none => st
  let record : AlignedSentence :=
    { id := "p" ++ toString pageNumber ++ "s" ++ toString (s.index + 1),
      text := s.text,
      position := estimatePosition s.index pageSentenceCount,
      audio := alignment.map (fun a => ⟨a.chapterIndex, a.globalStart, a.globalEnd, false⟩),
      confidence := match alignment with | some a => jsOr a.confidence 0 | none => 0 }
  (st', (record, alignment))

/-- The inner sentence loop of `alignTextToAudio` over one page. -/
def alignSentences (sim : String → String → ℚ) (ts : List ASentence)
    (pageNumber pageSentenceCount : ℕ) :
    AlignState → List PdfSentence → AlignState × List (AlignedSentence × Option MatchInfo)
  | st, [] => (st, [])
  | st, s :: rest =>
    let p := alignSentence sim ts pageNumber pageSentenceCount st s
    let q := alignSentences sim ts pageNumber pageSentenceCount p.1 rest
    (q.1, p.2 :: q.2)

/-- The outer page loop of `alignTextToAudio`. -/
def alignPagesCore (sim : String → String → ℚ) (ts : List ASentence) :
    AlignState → List PdfPage → AlignState × List (ℕ × List (AlignedSentence × Option MatchInfo))
  | st, [] => (st, [])
  | st, p :: rest =>
    let inner := alignSentences sim ts p.pageNumber p.sentences.length st p.sentences
    let outer := alignPagesCore sim ts inner.1 rest
    (outer.1, (p.pageNumber, inner.2) :: outer.2)

/-- The fuzzy-matching path of `alignTextToAudio`. -/
def alignFuzzy (sim : String → String → ℚ) (pdfText : PdfText)
    (transcription : Transcription) : AlignmentResult :=
  let run := alignPagesCore sim transcription.sentences ⟨[], 0, 0⟩ pdfText.pages
  let alignedPages : List AlignedPage :=
    run.2.map (fun pc => { pageNumber := pc.1, sentences := pc.2.map (·.1) })
  let total := pdfText.sentences.length
  let quality : ℚ := if 0 < total then ((run.1.matchCount : ℚ) / (total : ℚ)) * 100 else 0
  let avgConfidence : ℚ :=
    if 0 < run.1.matchCount then run.1.totalConfidence / (run.1.matchCount : ℚ) else 0
  { pages := alignedPages,
    metadata :=
      { pdfSentenceCount := total,
        audioSentenceCount := transcription.sentences.length,
        matchedCount := run.1.matchCount,
        averageConfidence := avgConfidence,
        alignmentType := none },
    quality := jsRound quality }

/-- The per-sentence `alignment` values of the fuzzy run, in document order
(page order, then in-page order), next to the records built from them. -/
def alignFuzzyEntries (sim : String → String → ℚ) (pdfText : PdfText)
    (transcription : Transcription) : List (AlignedSentence × Option MatchInfo) :=
  ((alignPagesCore sim transcription.sentences ⟨[], 0, 0⟩ pdfText.pages).2.map (·.2)).flatten

/-- The chapter-lookup loop inside `createTimeBasedAlignment` (the source
iterates all transcript sentences, keeping the chapter index of the last one
whose `globalStart` is not past the target). -/
def timeBasedChapterIndex (sentences : List ASentence) (globalStart : ℚ) : ℕ :=
  sentences.foldl (fun ci a => if a.globalStart ≤ globalStart then a.chapterIndex else ci) 0

/-- The inner sentence loop of `createTimeBasedAlignment`, threading the
document-wide `sentenceIndex` counter. -/
def timeBasedPage (transcription : Transcription) (avgSentenceDuration : ℚ)
    (pageNumber pageSentenceCount : ℕ) :
    ℕ → List PdfSentence → ℕ × List AlignedSentence
  | sIdx, [] => (sIdx, [])
  | sIdx, s :: rest =>
    let globalStart := (sIdx : ℚ) * avgSentenceDuration
    let globalEnd := ((sIdx : ℚ) + 1) * avgSentenceDuration
    let chapterIndex := timeBasedChapterIndex transcription.sentences globalStart
    let record : AlignedSentence :=
      { id := "p" ++ toString pageNumber ++ "s" ++ toString (s.index + 1),
        text := s.text,
        position := estimatePosition s.index pageSentenceCount,
        audio := some ⟨chapterIndex, globalStart, globalEnd, false⟩,
        confidence := 3/10 }
    let next := timeBasedPage transcription avgSentenceDuration pageNumber pageSentenceCount
      (sIdx + 1) rest
    (next.1, record :: next.2)

/-- The page loop of `createTimeBasedAlignment`. -/
def timeBasedPages (transcription : Transcription) (avgSentenceDuration : ℚ) :
    ℕ → List PdfPage → ℕ × List AlignedPage
  | sIdx, [] => (sIdx, [])
  | sIdx, p :: rest =>
    let inner := timeBasedPage transcription avgSentenceDuration p.pageNumber
      p.sentences.length sIdx p.sentences
    let outer := timeBasedPages transcription avgSentenceDuration inner.1 rest
    (outer.1, ⟨p.pageNumber, inner.2⟩ :: outer.2)

/-- Function `createTimeBasedAlignment` from alignment.js. -/
def createTimeBasedAlignment (pdfText : PdfText) (transcription : Transcription) :
    AlignmentResult :=
  let totalDuration := jsOr transcription.totalDuration 0
  let totalSentences := pdfText.sentences.length
  let avgSentenceDuration := totalDuration / (totalSentences : ℚ)
  { pages := (timeBasedPages transcription avgSentenceDuration 0 pdfText.pages).2,
    metadata :=
      { pdfSentenceCount := totalSentences,
        audioSentenceCount := transcription.sentences.length,
        matchedCount := totalSentences,
        averageConfidence := 3/10,
        alignmentType := some "time-based" },
    quality := 30 }

/-- The synthetic-transcription sniff at the top of `alignTextToAudio`:
nonempty sentence list whose first text contains `'transcription pending'`. -/
def isSyntheticTranscription (t : Transcription) : Bool :=
  match t.sentences with
  | [] => false
  | s0 :: _ => jsIncludes s0.text "transcription pending"

/-- Function `alignTextToAudio` from alignment.js. -/
def alignTextToAudio (sim : String → String → ℚ) (pdfText : PdfText)
    (transcription : Transcription) : AlignmentResult :=
  if isSyntheticTranscription transcription then createTimeBasedAlignment pdfText transcription
  else alignFuzzy sim pdfText transcription

/-- One bracketing pair of the interpolation loop: fill every sentence
strictly between the matched indices `startIdx < endIdx`. -/
def interpolatePair (sentences : List AlignedSentence) (pr : ℕ × ℕ) : List AlignedSentence :=
  let startIdx := pr.1
  let endIdx := pr.2
  let startAudio := (sentences.getD startIdx default).audio.getD default
  let endAudio := (sentences.getD endIdx default).audio.getD default
  let startTime := startAudio.globalEnd
  let endTime := endAudio.globalStart
  let gap := endIdx - startIdx - 1
  if gap = 0 then sentences
  else
    let duration := (endTime - startTime) / ((gap : ℚ) + 1)
    mapWithIndex (fun j s =>
      if startIdx < j ∧ j < endIdx then
        { s with
          audio := some ⟨startAudio.chapterIndex,
            startTime + ((j - startIdx : ℕ) : ℚ) * duration,
            startTime + (((j - startIdx : ℕ) : ℚ) + 1) * duration, true⟩,
          confidence := 1/2 }
      else s) sentences

/-- Function `interpolateTimestamps` restricted to one page. -/
def interpolatePage (page : AlignedPage) : AlignedPage :=
  let matchedIndices := (List.range page.sentences.length).filter
    (fun i => (page.sentences.getD i default).audio.isSome)
  if matchedIndices.length < 2 then page
  else
    { page with sentences := (matchedIndices.zip matchedIndices.tail).foldl interpolatePair page.sentences }

/-- Function `interpolateTimestamps` from alignment.js (exported but never invoked by
the pipeline). -/
def interpolateTimestamps (pages : List AlignedPage) : List AlignedPage :=
  pages.map interpolatePage

/-! ### Transcription (services/pdf/transcription.js) -/

/-- One raw whisper segment (`{ start, end, speech }`), times already decoded
to seconds by `parseTimestamp`. -/
structure WSegment where
  speech : String
  start : ℚ
  «end» : ℚ
  deriving Repr, DecidableEq, Inhabited

/-- One chapter-relative transcript sentence (`{ text, start, end }`). -/
structure TSentence where
  text : String
  start : ℚ
  «end» : ℚ
  deriving Repr, DecidableEq, Inhabited

/-- Function `isSentenceEnd` from transcription.js: the trimmed text matches
`/[.!?]$/`, `/[.!?]["']$/` or `/[.!?]\)$/`. -/
def isSentenceEnd (text : String) : Bool :=
  match (jsTrim text).data.reverse with
  | [] => false
  | c :: rest =>
    if c = '.' || c = '!' || c = '?' then true
    else if c = '"' || c = Char.ofNat 39 || c = ')' then
      match rest with
      | [] => false
      | d :: _ => d = '.' || d = '!' || d = '?'
    else false

/-- The segment loop of `parseWhisperOutput`, with the `currentSentence`
accumulator made explicit. -/
def parseWhisperOutputAux (cur : TSentence) : List WSegment → List TSentence
  | [] =>
    if jsTrim cur.text ≠ "" then
      [{ text := jsTrim cur.text, start := cur.start, «end» := cur.«end» }]
    else []
  | seg :: rest =>
    let start' := if cur.text = "" then seg.start else cur.start
    let text' := cur.text ++ (if cur.text ≠ "" then " " else "") ++ seg.speech
    let cur' : TSentence := { text := text', start := start', «end» := seg.«end» }
    if isSentenceEnd seg.speech then
      (if jsTrim cur'.text ≠ "" then
        [{ text := jsTrim cur'.text, start := cur'.start, «end» := cur'.«end» }]
      else []) ++ parseWhisperOutputAux { text := "", start := 0, «end» := 0 } rest
    else parseWhisperOutputAux cur' rest

/-- Function `parseWhisperOutput` from transcription.js. -/
def parseWhisperOutput (whisperResult : List WSegment) : List TSentence :=
  parseWhisperOutputAux { text := "", start := 0, «end» := 0 } whisperResult

/-- A cached or freshly computed chapter transcription
(`{ duration, sentences, isSynthetic? }`). -/
structure ChapterTranscription where
  duration : ℚ
  sentences : List TSentence
  isSynthetic : Bool
  deriving Repr, DecidableEq, Inhabited

/-- Function `createSyntheticTranscription` from transcription.js, given the chapter's
`duration_seconds` (0 standing for a missing row, as in `chapter?.duration_seconds
|| 300`). -/
def createSyntheticTranscription (duration_seconds : ℚ) : ChapterTranscription :=
  let duration := jsOr duration_seconds 300
  let avgSentenceDuration : ℚ := 3
  let sentenceCount := (⌊duration / avgSentenceDuration⌋).toNat
  { duration := duration,
    sentences := (List.range sentenceCount).map (fun i =>
      { text := "[Sentence " ++ toString (i + 1) ++ " - transcription pending]",
        start := (i : ℚ) * avgSentenceDuration,
        «end» := ((i : ℚ) + 1) * avgSentenceDuration }),
    isSynthetic := true }

/-- One chapter row joined with its (cached or computed) transcription; the
chapters arrive ordered by `order_index`, so the list position plays the role
of `chapter.order_index`.  `duration_seconds = 0` stands for a NULL row value
(both are falsy in `chapter.duration_seconds || chapterTranscription.duration`). -/
structure Chapter where
  duration_seconds : ℚ
  transcript : ChapterTranscription
  deriving Repr, DecidableEq, Inhabited

/-- The effective duration accumulated by `transcribeBook` for one chapter. -/
def chapterDuration (c : Chapter) : ℚ := jsOr c.duration_seconds c.transcript.duration

/-- The chapter loop of `transcribeBook`, threading the chapter index and the
cumulative time offset. -/
def transcribeBookAux : ℕ → ℚ → List Chapter → List ASentence × ℚ
  | _, cumulativeTime, [] => ([], cumulativeTime)
  | i, cumulativeTime, c :: rest =>
    let withGlobalTimes : List ASentence := c.transcript.sentences.map (fun s =>
      { text := s.text, start := s.start, «end» := s.«end», chapterIndex := i,
        globalStart := cumulativeTime + s.start, globalEnd := cumulativeTime + s.«end» })
    let next := transcribeBookAux (i + 1) (cumulativeTime + chapterDuration c) rest
    (withGlobalTimes ++ next.1, next.2)

/-- Function `transcribeBook` from transcription.js, over the chapter list that its
database query returns. -/
def transcribeBook (chapters : List Chapter) : Transcription :=
  let run := transcribeBookAux 0 0 chapters
  { totalDuration := run.2, sentences := run.1 }

/-! ### Text extraction (services/pdf/textExtractor.js) -/

/-- Function `extractSentences` from textExtractor.js, parameterized by the external
`natural.SentenceTokenizer` (`tok`). -/
def extractSentences (tok : String → List String) (text : String) : List PdfSentence :=
  let cleanText := collapseWsTrim text
  if cleanText = "" then []
  else mapWithIndex (fun index t => { text := t, index := index })
    (((tok cleanText).map jsTrim).filter (· ≠ ""))

/-- Function `extractPdfText` from textExtractor.js, over the per-page texts that
`pdf-parse` returns (`total` is `textResult.total`, 0 standing for a missing
value in `textResult.total || 1`). -/
def extractPdfText (tok : String → List String) (pageTexts : List String) (total : ℕ) :
    PdfText :=
  let pageCount := if total = 0 then 1 else total
  let allText := joinSep " " pageTexts
  let cleanText := collapseWsTrim allText
  let hasText := 100 < cleanText.length
  if hasText then
    let pages := mapWithIndex (fun index pageText =>
      { pageNumber := index + 1, rawText := jsTrim pageText,
        sentences := extractSentences tok pageText }) pageTexts
    { hasText := true, pageCount := pageCount, pages := pages,
      sentences := (mapWithIndex (fun pageIndex (page : PdfPage) =>
        mapWithIndex (fun sentenceIndex (s : PdfSentence) =>
          ({ id := "p" ++ toString (pageIndex + 1) ++ "s" ++ toString (sentenceIndex + 1),
             pageNumber := pageIndex + 1, text := s.text,
             indexInPage := sentenceIndex } : FlatSentence)) page.sentences) pages).flatten }
  else { hasText := false, pageCount := pageCount, pages := [], sentences := [] }

/-- The number of alphanumeric characters of a string (what the spec's
"total alphanumeric characters" heuristic would count). -/
def alphanumericCount (s : String) : ℕ := (s.data.filter Char.isAlphanum).length

/-! ### Job queues (services/pdf/jobQueue.js, services/transcription/jobQueue.js,
routes/pdf.js, routes/books.js) -/

/-- One row of the `pdf_jobs` / `transcription_jobs` table. -/
structure JobRow where
  id : ℕ
  status : String
  progress : ℕ
  error_message : Option String
  deriving Repr, DecidableEq, Inhabited

/-- The non-terminal statuses the pdf queue's `resumePendingJobs` selects. -/
def pdfActiveStatuses : List String := ["pending", "extracting", "transcribing", "aligning"]

/-- The non-terminal statuses the transcription queue's `resumePendingJobs`
selects. -/
def transcriptionActiveStatuses : List String := ["pending", "transcribing"]

/-- Terminal job statuses. -/
def terminalStatuses : List String := ["completed", "failed", "cancelled"]

/-- The per-job `UPDATE ... SET status = 'pending', progress = 0,
error_message = NULL WHERE id = ?` of `resumePendingJobs`. -/
def resetJobById (db : List JobRow) (jobId : ℕ) : List JobRow :=
  db.map (fun r =>
    if r.id = jobId then { r with status := "pending", progress := 0, error_message := none }
    else r)

/-- Function `resumePendingJobs`, common shape of both queues: select the rows in an
active status (the table is kept in `created_at` order), reset each by id,
and hand each selected id to `addJob` once; returns the updated table and
the enqueued ids in order. -/
def resumePendingJobsOn (activeStatuses : List String) (db : List JobRow) :
    List JobRow × List ℕ :=
  let pendingJobs := db.filter (fun r => r.status ∈ activeStatuses)
  (pendingJobs.foldl (fun acc j => resetJobById acc j.id) db, pendingJobs.map (fun j => j.id))

/-- Function `resumePendingJobs` from services/pdf/jobQueue.js. -/
def resumePendingJobsPdf (db : List JobRow) : List JobRow × List ℕ :=
  resumePendingJobsOn pdfActiveStatuses db

/-- Function `resumePendingJobs` from services/transcription/jobQueue.js. -/
def resumePendingJobsTranscription (db : List JobRow) : List JobRow × List ℕ :=
  resumePendingJobsOn transcriptionActiveStatuses db

/-- State of the pdf job pipeline: the in-memory queue and cancelled-ids set
of jobQueue.js, the `pdf_jobs` table, the `pdf_alignment` table (as the list
of job ids an alignment row was inserted for), and a ghost log of every
`updateJobStatus` call the worker made (its stage side effects). -/
structure PQState where
  queue : List ℕ
  cancelledJobs : List ℕ
  jobs : List JobRow
  alignmentSaved : List ℕ
  stageLog : List (ℕ × String)
  deriving Repr, DecidableEq, Inhabited

/-- The SQL `UPDATE pdf_jobs SET status/progress/error` used by
`updateJobStatus` (progress `none` = COALESCE keeps the old value; the error
message is only written when one is passed). -/
def dbSetStatus (jobs : List JobRow) (jobId : ℕ) (status : String) (progress : Option ℕ)
    (err : Option String) : List JobRow :=
  jobs.map (fun r =>
    if r.id = jobId then
      { r with
        status := status,
        progress := progress.getD r.progress,
        error_message := match err with | some e => some e | none => r.error_message }
    else r)

/-- Function `updateJobStatus` from services/pdf/jobQueue.js (worker-side status
writes; logged as a stage side effect). -/
def updateJobStatus (s : PQState) (jobId : ℕ) (status : String) (progress : Option ℕ)
    (err : Option String) : PQState :=
  { s with jobs := dbSetStatus s.jobs jobId status progress err,
           stageLog := s.stageLog ++ [(jobId, status)] }

/-- Function `cancelJob` from services/pdf/jobQueue.js: remember the id and remove the
job from the in-memory queue if still there. -/
def cancelJob (s : PQState) (jobId : ℕ) : PQState :=
  { s with cancelledJobs := jobId :: s.cancelledJobs, queue := s.queue.erase jobId }

/-- The pdf cancel route of routes/pdf.js: if the job is in a non-terminal
status, call `cancelJob` and set `status = 'cancelled'`, `error_message =
'Cancelled by user'` directly in the table. -/
def cancelRequest (s : PQState) (jobId : ℕ) : PQState :=
  match s.jobs.find? (fun r => r.id = jobId && decide (r.status ∉ terminalStatuses)) with
  | none => s
  | some job =>
    let s1 := cancelJob s job.id
    { s1 with jobs := dbSetStatus s1.jobs job.id "cancelled" none (some "Cancelled by user") }

/-- The await points of `processNext` at which a concurrently arriving cancel
request can run (the code between two awaits is synchronous, so these are the
only interleavings).  `inTranscribe` carries the job-progress values of the
`transcribeBook` progress callbacks that fire before and after the cancel;
the callbacks after the cancel always include the final `onProgress(100)`
one, which the pdf queue runs unconditionally. -/
inductive CancelPoint
  | noCancel (callbacks : List ℕ)
  | inExtract (callbacks : List ℕ)
  | inTranscribe (callbacksBefore callbacksAfter : List ℕ)
  | inAlign (callbacks : List ℕ)
  deriving Repr, DecidableEq

/-- Run the `transcribeBook` progress callbacks (each maps to
`updateJobStatus(jobId, 'transcribing', p)` with no cancellation guard). -/
def transcribeCallbacks (s : PQState) (jobId : ℕ) : List ℕ → PQState
  | [] => s
  | p :: rest => transcribeCallbacks (updateJobStatus s jobId "transcribing" (some p) none) jobId rest

/-- Function `processNext` from services/pdf/jobQueue.js, for the job at the head of
the queue, with a cancel request interleaved at the await point `cp`;
`hasText` is the extraction's text classification. -/
def processNext (cp : CancelPoint) (jobId : ℕ) (hasText : Bool) (s0 : PQState) : PQState :=
  let s := { s0 with queue := s0.queue.drop 1 }
  if jobId ∈ s.cancelledJobs then
    { s with cancelledJobs := s.cancelledJobs.erase jobId }
  else
    let s := updateJobStatus s jobId "extracting" (some 10) none
    let s := match cp with | .inExtract _ => cancelRequest s jobId | _ => s
    if jobId ∈ s.cancelledJobs then
      { s with cancelledJobs := s.cancelledJobs.erase jobId }
    else if ¬hasText then
      updateJobStatus s jobId "failed" none
        (some "PDF appears to be scanned/image-based. OCR support coming in Phase 2.")
    else
      let s := updateJobStatus s jobId "extracting" (some 30) none
      let s := updateJobStatus s jobId "transcribing" (some 40) none
      let s := match cp with
        | .noCancel cbs => transcribeCallbacks s jobId cbs
        | .inExtract cbs => transcribeCallbacks s jobId cbs
        | .inAlign cbs => transcribeCallbacks s jobId cbs
        | .inTranscribe before after =>
          transcribeCallbacks (cancelRequest (transcribeCallbacks s jobId before) jobId) jobId after
      if jobId ∈ s.cancelledJobs then
        { s with cancelledJobs := s.cancelledJobs.erase jobId }
      else
        let s := updateJobStatus s jobId "aligning" (some 75) none
        let s := match cp with | .inAlign _ => cancelRequest s jobId | _ => s
        if jobId ∈ s.cancelledJobs then
          { s with cancelledJobs := s.cancelledJobs.erase jobId }
        else
          let s := updateJobStatus s jobId "aligning" (some 90) none
          let s := { s with alignmentSaved := s.alignmentSaved ++ [jobId] }
          updateJobStatus s jobId "completed" (some 100) none

/-- The status of a job in the table. -/
def jobStatus (s : PQState) (jobId : ℕ) : Option String :=
  (s.jobs.find? (fun r => r.id = jobId)).map (fun r => r.status)

/-! ### Concrete fixtures -/

/-- A similarity function agreeing with Jaro-Winkler on identical strings
(`JaroWinklerDistance(x, x) = 1`); in the concrete runs below every comparison
the aligner performs is between identical normalized strings, so the runs
coincide with the real ones. -/
def simExact : String → String → ℚ := fun a b => if a = b then 1 else 0

/-- Scenario A transcript: 12 real sentences, distinct first-three-words keys. -/
def trA : Transcription :=
  { totalDuration := 120,
    sentences := [
      ⟨"alpha bravo s0", 0, 5, 0, 0, 5⟩, ⟨"alpha bravo s1", 10, 15, 0, 10, 15⟩,
      ⟨"alpha bravo s2", 20, 25, 0, 20, 25⟩, ⟨"alpha bravo s3", 30, 35, 0, 30, 35⟩,
      ⟨"alpha bravo s5", 40, 45, 0, 40, 45⟩, ⟨"alpha bravo s6", 50, 55, 0, 50, 55⟩,
      ⟨"alpha bravo s8", 60, 65, 0, 60, 65⟩, ⟨"alpha bravo s9", 70, 75, 0, 70, 75⟩,
      ⟨"zulu extra one", 80, 85, 0, 80, 85⟩, ⟨"zulu extra two", 90, 95, 0, 90, 95⟩,
      ⟨"zulu extra three", 100, 105, 0, 100, 105⟩, ⟨"zulu extra four", 110, 115, 0, 110, 115⟩] }

/-- Scenario A document: 10 sentences on one page; sentences 4 and 7 have no
index key in the transcript (left unmatched) but are bracketed by matches. -/
def ptA : PdfText :=
  { hasText := true, pageCount := 1,
    pages := [⟨1, "", [⟨"alpha bravo s0", 0⟩, ⟨"alpha bravo s1", 1⟩, ⟨"alpha bravo s2", 2⟩,
      ⟨"alpha bravo s3", 3⟩, ⟨"qq ww ee rr", 4⟩, ⟨"alpha bravo s5", 5⟩, ⟨"alpha bravo s6", 6⟩,
      ⟨"tt uu vv ww", 7⟩, ⟨"alpha bravo s8", 8⟩, ⟨"alpha bravo s9", 9⟩]⟩],
    sentences := [⟨"p1s1", 1, "alpha bravo s0", 0⟩, ⟨"p1s2", 1, "alpha bravo s1", 1⟩,
      ⟨"p1s3", 1, "alpha bravo s2", 2⟩, ⟨"p1s4", 1, "alpha bravo s3", 3⟩,
      ⟨"p1s5", 1, "qq ww ee rr", 4⟩, ⟨"p1s6", 1, "alpha bravo s5", 5⟩,
      ⟨"p1s7", 1, "alpha bravo s6", 6⟩, ⟨"p1s8", 1, "tt uu vv ww", 7⟩,
      ⟨"p1s9", 1, "alpha bravo s8", 8⟩, ⟨"p1s10", 1, "alpha bravo s9", 9⟩] }

/-- A small two-sentence document. -/
def ptB : PdfText :=
  { hasText := true, pageCount := 1,
    pages := [⟨1, "", [⟨"hello there friend", 0⟩, ⟨"more words here", 1⟩]⟩],
    sentences := [⟨"p1s1", 1, "hello there friend", 0⟩, ⟨"p1s2", 1, "more words here", 1⟩] }

/-- A synthetic (placeholder) transcript of positive total duration. -/
def trS : Transcription :=
  { totalDuration := 6,
    sentences := [⟨"[Sentence 1 - transcription pending]", 0, 3, 0, 0, 3⟩,
      ⟨"[Sentence 2 - transcription pending]", 3, 6, 0, 3, 6⟩] }

/-- The identity sentence tokenizer (one sentence per page). -/
def tok0 : String → List String := fun s => [s]

/-- A page text with 99 alphanumeric characters but 114 characters in all. -/
def scannedPageText : String := ⟨List.replicate 99 'a' ++ List.replicate 15 '.'⟩

/-- A page text well under the extraction threshold. -/
def shortPageText : String := ⟨List.replicate 50 'b'⟩

/-- One pending pdf job (id 1) at the head of the queue. -/
def pqInit : PQState := ⟨[1], [], [⟨1, "pending", 0, none⟩], [], []⟩

/-- Whisper segments of a first test chapter. -/
def ch0segs : List WSegment := [⟨"Hello world.", 0, 2⟩, ⟨"Bye.", 3, 4⟩]

/-- Whisper segments of a second test chapter. -/
def ch1segs : List WSegment := [⟨"Second chapter.", 1, 2⟩]

/-- A two-chapter book whose transcriptions come from whisper output. -/
def chW : List Chapter :=
  [⟨10, ⟨4, parseWhisperOutput ch0segs, false⟩⟩,
   ⟨20, ⟨2, parseWhisperOutput ch1segs, false⟩⟩]

/-- A job interrupted mid-transcription before a restart. -/
def jobW : JobRow := ⟨1, "transcribing", 50, some "boom"⟩

/-- A jobs table with one interrupted and one completed job. -/
def dbW : List JobRow := [jobW, ⟨2, "completed", 100, none⟩]

/-- A one-sentence transcript whose key matches its own text. -/
def trW : Transcription :=
  { totalDuration := 5, sentences := [⟨"hello world program", 0, 5, 0, 0, 5⟩] }

/-- The match `findBestMatch` returns for `"hello world program"` against
`trW` under `simExact`. -/
def mW : MatchInfo := ⟨0, 0, 0, 5, 1⟩

/-- A one-sentence document matching `trW`. -/
def ptW : PdfText :=
  { hasText := true, pageCount := 1,
    pages := [⟨1, "", [⟨"Hello, world program.", 0⟩]⟩],
    sentences := [⟨"p1s1", 1, "Hello, world program.", 0⟩] }

/-- The record the fuzzy aligner produces for `ptW` against `trW`. -/
def rW : AlignedSentence :=
  { id := "p1s1", text := "Hello, world program.", position := ⟨72, 720, 468, 14⟩,
    audio := some ⟨0, 0, 5, false⟩, confidence := 1 }

/-! ### Proof-support predicates -/

/-- Invariant of the candidate-fold accumulator of `findBestMatch`: a held
best match is an unconsumed candidate record at or above the threshold whose
confidence is the held best score. -/
def GoodAcc (sim : String → String → ℚ) (normalizedPdf : String) (ts : List ASentence)
    (matchedSet : List ℕ) (acc : Option MatchInfo × ℚ) : Prop :=
  ∀ m, acc.1 = some m →
    m.transcriptionIndex ∉ matchedSet ∧ threshold ≤ m.confidence ∧ m.confidence = acc.2 ∧
    m = candidateInfo sim normalizedPdf ts m.transcriptionIndex

/-- Two per-sentence alignment entries do not reuse a transcript index. -/
def DistinctMatch (a b : AlignedSentence × Option MatchInfo) : Prop :=
  ∀ ma mb, a.2 = some ma → b.2 = some mb →
    ma.transcriptionIndex ≠ mb.transcriptionIndex

/-- Well-formed raw engine output: every segment has nonnegative start, end
at or after start, and the segments arrive in chronological order (each
segment starts no earlier than the previous one ended). -/
def SegmentsWellFormed (segs : List WSegment) : Prop :=
  (∀ s ∈ segs, 0 ≤ s.start ∧ s.start ≤ s.«end») ∧
  List.Chain' (fun a b => a.«end» ≤ b.start) segs

/-- Audio spans of two records are strictly ordered by global start. -/
def StrictStartOrder (a b : AlignedSentence) : Prop :=
  ∀ sa sb, a.audio = some sa → b.audio = some sb → sa.globalStart < sb.globalStart

/-- Consistency of an aligned record with the `alignment` value it was built
from. -/
def EntryOK (e : AlignedSentence × Option MatchInfo) : Prop :=
  (e.2 = none → e.1.audio = none ∧ e.1.confidence = 0) ∧
  ∀ a, e.2 = some a →
    e.1.audio = some ⟨a.chapterIndex, a.globalStart, a.globalEnd, false⟩ ∧
    e.1.confidence = a.confidence ∧ threshold ≤ a.confidence

end AudiobookNook

namespace AudiobookNook

/-! ### Lemmas about the candidate fold of findBestMatch -/

theorem candidateInfo_transcriptionIndex (sim : String → String → ℚ) (npdf : String)
    (ts : List ASentence) (idx : ℕ) :
    (candidateInfo sim npdf ts idx).transcriptionIndex = idx := rfl

theorem goodAcc_step (sim : String → String → ℚ) (npdf : String) (ts : List ASentence)
    (ms : List ℕ) (acc : Option MatchInfo × ℚ) (idx : ℕ)
    (h : GoodAcc sim npdf ts ms acc) :
    GoodAcc sim npdf ts ms (bestMatchStep sim npdf ts ms acc idx) := by
  unfold bestMatchStep
  split
  · exact h
  · rename_i hmem
    dsimp only
    split
    · rename_i hcond
      intro m hm
      simp only [Option.some.injEq] at hm
      subst hm
      exact ⟨hmem, hcond.2, rfl, rfl⟩
    · exact h

theorem goodAcc_foldl (sim : String → String → ℚ) (npdf : String) (ts : List ASentence)
    (ms : List ℕ) :
    ∀ (l : List ℕ) (acc : Option MatchInfo × ℚ), GoodAcc sim npdf ts ms acc →
      GoodAcc sim npdf ts ms (l.foldl (bestMatchStep sim npdf ts ms) acc)
  | [], _, h => h
  | idx :: rest, acc, h =>
    goodAcc_foldl sim npdf ts ms rest _ (goodAcc_step sim npdf ts ms acc idx h)

theorem bestMatchStep_score_le (sim : String → String → ℚ) (npdf : String)
    (ts : List ASentence) (ms : List ℕ) (acc : Option MatchInfo × ℚ) (idx : ℕ) :
    acc.2 ≤ (bestMatchStep sim npdf ts ms acc idx).2 := by
  unfold bestMatchStep
  split
  · exact le_refl _
  · dsimp only
    split
    · rename_i hcond
      exact le_of_lt hcond.1
    · exact le_refl _

theorem foldl_score_le (sim : String → String → ℚ) (npdf : String) (ts : List ASentence)
    (ms : List ℕ) :
    ∀ (l : List ℕ) (acc : Option MatchInfo × ℚ),
      acc.2 ≤ (l.foldl (bestMatchStep sim npdf ts ms) acc).2
  | [], _ => le_refl _
  | idx :: rest, acc =>
    le_trans (bestMatchStep_score_le sim npdf ts ms acc idx)
      (foldl_score_le sim npdf ts ms rest _)

theorem foldl_candidate_bound (sim : String → String → ℚ) (npdf : String)
    (ts : List ASentence) (ms : List ℕ) :
    ∀ (l : List ℕ) (acc : Option MatchInfo × ℚ) (j : ℕ), j ∈ l → j ∉ ms →
      (candidateInfo sim npdf ts j).confidence < threshold ∨
      (candidateInfo sim npdf ts j).confidence ≤ (l.foldl (bestMatchStep sim npdf ts ms) acc).2 := by
  intro l
  induction l with
  | nil => intro acc j hj; exact absurd hj (List.not_mem_nil j)
  | cons a rest ih =>
    intro acc j hj hjm
    rw [List.foldl_cons]
    rcases List.mem_cons.mp hj with rfl | hj'
    · have hstep : (candidateInfo sim npdf ts j).confidence < threshold ∨
          (candidateInfo sim npdf ts j).confidence ≤ (bestMatchStep sim npdf ts ms acc j).2 := by
        unfold bestMatchStep
        rw [if_neg hjm]
        dsimp only
        split
        · exact Or.inr (le_refl _)
        · rename_i hcond
          rcases not_and_or.mp hcond with hlt | hth
          · exact Or.inr (le_of_not_lt hlt)
          · exact Or.inl (lt_of_not_le hth)
      rcases hstep with h | h
      · exact Or.inl h
      · exact Or.inr (le_trans h (foldl_score_le sim npdf ts ms rest _))
    · exact ih _ j hj' hjm

theorem foldl_some_src (sim : String → String → ℚ) (npdf : String) (ts : List ASentence)
    (ms : List ℕ) :
    ∀ (l : List ℕ) (acc : Option MatchInfo × ℚ) (m : MatchInfo),
      (l.foldl (bestMatchStep sim npdf ts ms) acc).1 = some m →
      acc.1 = some m ∨ m.transcriptionIndex ∈ l := by
  intro l
  induction l with
  | nil => intro acc m hm; exact Or.inl hm
  | cons a rest ih =>
    intro acc m hm
    rw [List.foldl_cons] at hm
    rcases ih _ m hm with hstep | hmem
    · revert hstep
      unfold bestMatchStep
      split
      · exact fun h => Or.inl h
      · dsimp only
        split
        · intro h
          simp only [Option.some.injEq] at h
          subst h
          exact Or.inr (List.mem_cons_self a rest)
        · exact fun h => Or.inl h
    · exact Or.inr (List.mem_cons_of_mem a hmem)

/-! ### Claim theorems -/

/-- C1, counterexample: on the synthetic time-based path the returned quality
is the constant 30, while `round(matchedCount / totalDocumentSentences × 100)`
(clamped or not) is 100, so the claimed equation fails for that path. -/
theorem C1_counterexample :
    isSyntheticTranscription trS = true ∧
    (alignTextToAudio simExact ptB trS).metadata.matchedCount = 2 ∧
    ptB.sentences.length = 2 ∧
    (alignTextToAudio simExact ptB trS).quality = 30 ∧
    jsRound (((2 : ℚ) / 2) * 100) = 100 ∧
    (30 : ℤ) ≠ 100 := by
  with_unfolding_all decide

/-- C2 (code bug): on a Scenario-A input — 10 document sentences, a real
12-sentence transcript, 8 exact matches, 2 unmatched-but-bracketed sentences —
`alignTextToAudio` returns quality 80 and matchedCount 8, but the result it
hands back for persistence still contains records with a null audio span:
`interpolateTimestamps` (which would fill both bracketed gaps, last conjunct)
is never invoked by the pipeline. -/
theorem C2_scenarioA_divergence :
    isSyntheticTranscription trA = false ∧
    ptA.sentences.length = 10 ∧
    trA.sentences.length = 12 ∧
    (alignTextToAudio simExact ptA trA).quality = 80 ∧
    (alignTextToAudio simExact ptA trA).metadata.matchedCount = 8 ∧
    (∃ p ∈ (alignTextToAudio simExact ptA trA).pages,
      ∃ s ∈ p.sentences, s.audio = none) ∧
    (∀ p ∈ interpolateTimestamps (alignTextToAudio simExact ptA trA).pages,
      ∀ s ∈ p.sentences, s.audio ≠ none) := by
  with_unfolding_all decide

/-- C6 (code bug): cancelling the still-queued job 1 yields status
`cancelled` with zero stages executed and nothing persisted; but cancelling
it while the transcribing stage is in flight leaves it in status
`transcribing` forever — the unguarded final `onProgress(100)` callback of
the pdf queue overwrites the router's `cancelled` — though no alignment is
persisted. -/
theorem C6_cancellation_divergence :
    (jobStatus (cancelRequest pqInit 1) 1 = some "cancelled" ∧
     (cancelRequest pqInit 1).queue = [] ∧
     (cancelRequest pqInit 1).stageLog = [] ∧
     (cancelRequest pqInit 1).alignmentSaved = []) ∧
    (jobStatus (processNext (.inTranscribe [] [70]) 1 true pqInit) 1 = some "transcribing" ∧
     some "transcribing" ≠ some "cancelled" ∧
     (processNext (.inTranscribe [] [70]) 1 true pqInit).alignmentSaved = [] ∧
     (processNext (.inTranscribe [] [70]) 1 true pqInit).cancelledJobs = [] ∧
     (processNext (.inTranscribe [] [70]) 1 true pqInit).queue = []) := by
  with_unfolding_all decide

/-- Full behavioral specification of `findBestMatch` (helper). -/
theorem findBestMatch_spec (sim : String → String → ℚ) (pdfSentence : String)
    (ts : List ASentence) (matchedSet : List ℕ) :
    ((normalizeText pdfSentence).length < 3 →
      findBestMatch sim pdfSentence ts matchedSet = none) ∧
    (buildTranscriptionIndex ts (keyOfNormalized (normalizeText pdfSentence)) = [] →
      findBestMatch sim pdfSentence ts matchedSet = none) ∧
    ∀ m, findBestMatch sim pdfSentence ts matchedSet = some m →
      m.transcriptionIndex ∈
        buildTranscriptionIndex ts (keyOfNormalized (normalizeText pdfSentence)) ∧
      m.transcriptionIndex ∉ matchedSet ∧
      m = candidateInfo sim (normalizeText pdfSentence) ts m.transcriptionIndex ∧
      threshold ≤ m.confidence ∧
      ∀ j ∈ buildTranscriptionIndex ts (keyOfNormalized (normalizeText pdfSentence)),
        j ∉ matchedSet →
        (candidateInfo sim (normalizeText pdfSentence) ts j).confidence ≤ m.confidence := by
  refine ⟨?_, ?_, ?_⟩
  · intro hlen
    simp only [findBestMatch]
    rw [if_pos hlen]
  · intro hidx
    simp only [findBestMatch]
    split
    · rfl
    · rw [hidx]
      rfl
  · intro m hm
    simp only [findBestMatch] at hm
    split at hm
    · exact absurd hm (by simp)
    · split at hm
      · exact absurd hm (by simp)
      · have hgood := goodAcc_foldl sim (normalizeText pdfSentence) ts matchedSet
          (buildTranscriptionIndex ts (keyOfNormalized (normalizeText pdfSentence)))
          (none, 0) (fun m hm => by simp at hm)
        have hprops := hgood m hm
        have hsrc := foldl_some_src sim (normalizeText pdfSentence) ts matchedSet
          (buildTranscriptionIndex ts (keyOfNormalized (normalizeText pdfSentence)))
          (none, 0) m hm
        rcases hsrc with habs | hmem
        · exact absurd habs (by simp)
        · refine ⟨hmem, hprops.1, hprops.2.2.2, hprops.2.1, ?_⟩
          intro j hj hjm
          rcases foldl_candidate_bound sim (normalizeText pdfSentence) ts matchedSet
            (buildTranscriptionIndex ts (keyOfNormalized (normalizeText pdfSentence)))
            (none, 0) j hj hjm with hlt | hle
          · exact le_of_lt (lt_of_lt_of_le hlt hprops.2.1)
          · rw [hprops.2.2.1]
            exact hle

/-- A returned best match is unconsumed and meets the threshold (helper). -/
theorem findBestMatch_some_props (sim : String → String → ℚ) (pdfSentence : String)
    (ts : List ASentence) (matchedSet : List ℕ) (m : MatchInfo)
    (h : findBestMatch sim pdfSentence ts matchedSet = some m) :
    m.transcriptionIndex ∉ matchedSet ∧ threshold ≤ m.confidence := by
  have hp := (findBestMatch_spec sim pdfSentence ts matchedSet).2.2 m h
  exact ⟨hp.2.1, hp.2.2.2.1⟩

/-- Facts about one iteration of the fuzzy sentence loop (helper). -/
theorem alignSentence_spec (sim : String → String → ℚ) (ts : List ASentence)
    (pn cnt : ℕ) (st : AlignState) (s : PdfSentence) :
    EntryOK (alignSentence sim ts pn cnt st s).2 ∧
    ((alignSentence sim ts pn cnt st s).2.2 = none → (alignSentence sim ts pn cnt st s).1 = st) ∧
    ∀ a, (alignSentence sim ts pn cnt st s).2.2 = some a →
      a.transcriptionIndex ∉ st.matched ∧
      (alignSentence sim ts pn cnt st s).1.matched = a.transcriptionIndex :: st.matched := by
  cases halign : findBestMatch sim s.text ts st.matched with
  | none =>
    refine ⟨⟨fun _ => ?_, fun a ha => ?_⟩, fun _ => ?_, fun a ha => ?_⟩ <;>
      simp [alignSentence, halign] at *
  | some a =>
    have hprops := findBestMatch_some_props sim s.text ts st.matched a halign
    have hconf : jsOr a.confidence 0 = a.confidence := by
      unfold jsOr
      split
      · rename_i h0
        rw [h0]
      · rfl
    refine ⟨⟨fun hnone => ?_, fun b hb => ?_⟩, fun hnone => ?_, fun b hb => ?_⟩
    · simp [alignSentence, halign] at hnone
    · have hb' : a = b := by simpa [alignSentence, halign] using hb
      subst hb'
      refine ⟨by simp [alignSentence, halign], ?_, hprops.2⟩
      simp [alignSentence, halign, hconf]
    · simp [alignSentence, halign] at hnone
    · have hb' : a = b := by simpa [alignSentence, halign] using hb
      subst hb'
      exact ⟨hprops.1, by simp [alignSentence, halign]⟩

/-- Facts about the fuzzy sentence loop over one page (helper): the consumed
set only grows, every produced match is recorded in the final consumed set
and was not consumed at entry, and no transcript index is used twice. -/
theorem alignSentences_spec (sim : String → String → ℚ) (ts : List ASentence) (pn cnt : ℕ) :
    ∀ (l : List PdfSentence) (st : AlignState),
      (∀ x ∈ st.matched, x ∈ (alignSentences sim ts pn cnt st l).1.matched) ∧
      (∀ e ∈ (alignSentences sim ts pn cnt st l).2,
        EntryOK e ∧ ∀ a, e.2 = some a →
          a.transcriptionIndex ∈ (alignSentences sim ts pn cnt st l).1.matched ∧
          a.transcriptionIndex ∉ st.matched) ∧
      List.Pairwise DistinctMatch (alignSentences sim ts pn cnt st l).2 := by
  intro l
  induction l with
  | nil =>
    intro st
    refine ⟨fun x hx => ?_, fun e he => ?_, ?_⟩
    · simpa [alignSentences] using hx
    · simp [alignSentences] at he
    · simp [alignSentences]
  | cons s rest ih =>
    intro st
    obtain ⟨hok, hnone, hsome⟩ := alignSentence_spec sim ts pn cnt st s
    obtain ⟨ihsub, ihmem, ihpw⟩ := ih (alignSentence sim ts pn cnt st s).1
    have hsub1 : ∀ x ∈ st.matched, x ∈ (alignSentence sim ts pn cnt st s).1.matched := by
      intro x hx
      cases h2 : (alignSentence sim ts pn cnt st s).2.2 with
      | none => rw [hnone h2]; exact hx
      | some a => rw [(hsome a h2).2]; exact List.mem_cons_of_mem _ hx
    have heq : alignSentences sim ts pn cnt st (s :: rest) =
        ((alignSentences sim ts pn cnt (alignSentence sim ts pn cnt st s).1 rest).1,
         (alignSentence sim ts pn cnt st s).2 ::
           (alignSentences sim ts pn cnt (alignSentence sim ts pn cnt st s).1 rest).2) := rfl
    rw [heq]
    refine ⟨fun x hx => ihsub x (hsub1 x hx), fun e he => ?_, ?_⟩
    · rcases List.mem_cons.mp he with rfl | he'
      · refine ⟨hok, fun a ha => ?_⟩
        have hm := hsome a ha
        refine ⟨ihsub _ (by rw [hm.2]; exact List.mem_cons_self _ _), hm.1⟩
      · obtain ⟨hok', hmem'⟩ := ihmem e he'
        refine ⟨hok', fun a ha => ?_⟩
        obtain ⟨hin, hnotin⟩ := hmem' a ha
        exact ⟨hin, fun hcontra => hnotin (hsub1 _ hcontra)⟩
    · refine List.Pairwise.cons ?_ ihpw
      intro e he' ma mb hma hmb
      have hma' := hsome ma hma
      have hmb' := (ihmem e he').2 mb hmb
      intro hcontra
      apply hmb'.2
      rw [hma'.2, ← hcontra]
      exact List.mem_cons_self _ _

/-- Facts about the full fuzzy page loop (helper). -/
theorem alignPagesCore_spec (sim : String → String → ℚ) (ts : List ASentence) :
    ∀ (pgs : List PdfPage) (st : AlignState),
      (∀ x ∈ st.matched, x ∈ (alignPagesCore sim ts st pgs).1.matched) ∧
      (∀ e ∈ ((alignPagesCore sim ts st pgs).2.map (·.2)).flatten,
        EntryOK e ∧ ∀ a, e.2 = some a →
          a.transcriptionIndex ∈ (alignPagesCore sim ts st pgs).1.matched ∧
          a.transcriptionIndex ∉ st.matched) ∧
      List.Pairwise DistinctMatch ((alignPagesCore sim ts st pgs).2.map (·.2)).flatten := by
  intro pgs
  induction pgs with
  | nil =>
    intro st
    refine ⟨fun x hx => ?_, fun e he => ?_, ?_⟩
    · simpa [alignPagesCore] using hx
    · simp [alignPagesCore] at he
    · simp [alignPagesCore]
  | cons p rest ih =>
    intro st
    obtain ⟨isub, imem, ipw⟩ := alignSentences_spec sim ts p.pageNumber p.sentences.length
      p.sentences st
    obtain ⟨rsub, rmem, rpw⟩ :=
      ih (alignSentences sim ts p.pageNumber p.sentences.length st p.sentences).1
    have heq : alignPagesCore sim ts st (p :: rest) =
        ((alignPagesCore sim ts
            (alignSentences sim ts p.pageNumber p.sentences.length st p.sentences).1 rest).1,
         (p.pageNumber,
            (alignSentences sim ts p.pageNumber p.sentences.length st p.sentences).2) ::
           (alignPagesCore sim ts
            (alignSentences sim ts p.pageNumber p.sentences.length st p.sentences).1 rest).2) := rfl
    rw [heq]
    simp only [List.map_cons, List.flatten_cons]
    refine ⟨fun x hx => rsub x (isub x hx), fun e he => ?_, ?_⟩
    · rcases List.mem_append.mp he with he' | he'
      · obtain ⟨hok, hmem⟩ := imem e he'
        refine ⟨hok, fun a ha => ?_⟩
        obtain ⟨hin, hnotin⟩ := hmem a ha
        exact ⟨rsub _ hin, hnotin⟩
      · obtain ⟨hok, hmem⟩ := rmem e he'
        refine ⟨hok, fun a ha => ?_⟩
        obtain ⟨hin, hnotin⟩ := hmem a ha
        exact ⟨hin, fun hcontra => hnotin (isub _ hcontra)⟩
    · rw [List.pairwise_append]
      refine ⟨ipw, rpw, ?_⟩
      intro e1 he1 e2 he2 ma mb hma hmb
      have h1 := (imem e1 he1).2 ma hma
      have h2 := (rmem e2 he2).2 mb hmb
      intro hcontra
      exact h2.2 (hcontra ▸ h1.1)

/-- C5: the fuzzy matcher skips document sentences whose normalized text is
shorter than 3 characters; a key miss (no candidates under the
first-three-normalized-words key) leaves the sentence unmatched without any
further search; and a returned match is an unconsumed candidate from that key
lookup whose case/punctuation-insensitive similarity is at least the 0.7
threshold and is maximal among the unconsumed candidates. -/
theorem C5_findBestMatch_spec (sim : String → String → ℚ) (pdfSentence : String)
    (ts : List ASentence) (matchedSet : List ℕ) :
    ((normalizeText pdfSentence).length < 3 →
      findBestMatch sim pdfSentence ts matchedSet = none) ∧
    (buildTranscriptionIndex ts (keyOfNormalized (normalizeText pdfSentence)) = [] →
      findBestMatch sim pdfSentence ts matchedSet = none) ∧
    ∀ m, findBestMatch sim pdfSentence ts matchedSet = some m →
      m.transcriptionIndex ∈
        buildTranscriptionIndex ts (keyOfNormalized (normalizeText pdfSentence)) ∧
      m.transcriptionIndex ∉ matchedSet ∧
      m = candidateInfo sim (normalizeText pdfSentence) ts m.transcriptionIndex ∧
      threshold ≤ m.confidence ∧
      ∀ j ∈ buildTranscriptionIndex ts (keyOfNormalized (normalizeText pdfSentence)),
        j ∉ matchedSet →
        (candidateInfo sim (normalizeText pdfSentence) ts j).confidence ≤ m.confidence :=
  findBestMatch_spec sim pdfSentence ts matchedSet

/-- C5, witness: a concrete run of `findBestMatch` on trW. -/
theorem C5_witness :
    findBestMatch simExact "Hello, world program." trW.sentences [] = some mW ∧
    (mW.transcriptionIndex ∈
      buildTranscriptionIndex trW.sentences (keyOfNormalized (normalizeText "Hello, world program.")) ∧
     mW.transcriptionIndex ∉ ([] : List ℕ) ∧
     mW = candidateInfo simExact (normalizeText "Hello, world program.") trW.sentences
       mW.transcriptionIndex ∧
     threshold ≤ mW.confidence ∧
     ∀ j ∈ buildTranscriptionIndex trW.sentences
         (keyOfNormalized (normalizeText "Hello, world program.")),
       j ∉ ([] : List ℕ) →
       (candidateInfo simExact (normalizeText "Hello, world program.") trW.sentences j).confidence ≤
         mW.confidence) :=
  ⟨by with_unfolding_all decide,
   (C5_findBestMatch_spec simExact "Hello, world program." trW.sentences []).2.2 mW
     (by with_unfolding_all decide)⟩

/-- The match counter grows by at most one per document sentence (helper). -/
theorem alignSentence_count (sim : String → String → ℚ) (ts : List ASentence)
    (pn cnt : ℕ) (st : AlignState) (s : PdfSentence) :
    (alignSentence sim ts pn cnt st s).1.matchCount ≤ st.matchCount + 1 := by
  cases halign : findBestMatch sim s.text ts st.matched with
  | none => simp [alignSentence, halign]
  | some a => simp [alignSentence, halign]

theorem alignSentences_count (sim : String → String → ℚ) (ts : List ASentence) (pn cnt : ℕ) :
    ∀ (l : List PdfSentence) (st : AlignState),
      (alignSentences sim ts pn cnt st l).1.matchCount ≤ st.matchCount + l.length := by
  intro l
  induction l with
  | nil => intro st; simp [alignSentences]
  | cons s rest ih =>
    intro st
    have h1 := alignSentence_count sim ts pn cnt st s
    have h2 := ih (alignSentence sim ts pn cnt st s).1
    have heq : (alignSentences sim ts pn cnt st (s :: rest)).1 =
        (alignSentences sim ts pn cnt (alignSentence sim ts pn cnt st s).1 rest).1 := rfl
    rw [heq]
    simp only [List.length_cons]
    omega

theorem alignPagesCore_count (sim : String → String → ℚ) (ts : List ASentence) :
    ∀ (pgs : List PdfPage) (st : AlignState),
      (alignPagesCore sim ts st pgs).1.matchCount ≤
        st.matchCount + (pgs.map (fun p => p.sentences.length)).sum := by
  intro pgs
  induction pgs with
  | nil => intro st; simp [alignPagesCore]
  | cons p rest ih =>
    intro st
    have h1 := alignSentences_count sim ts p.pageNumber p.sentences.length p.sentences st
    have h2 := ih (alignSentences sim ts p.pageNumber p.sentences.length st p.sentences).1
    have heq : (alignPagesCore sim ts st (p :: rest)).1 =
        (alignPagesCore sim ts
          (alignSentences sim ts p.pageNumber p.sentences.length st p.sentences).1 rest).1 := rfl
    rw [heq]
    simp only [List.map_cons, List.sum_cons]
    omega

/-- C1, amended: on the fuzzy path the returned quality equals
`round(matchedCount / totalDocumentSentences × 100)` (0 when the document is
empty) and automatically lies in [0, 100]; on the synthetic time-based path
the quality is instead the constant 30 while `matchedCount` equals the total
document sentence count. -/
theorem C1_amended_quality (sim : String → String → ℚ) (pt : PdfText) (t : Transcription)
    (hwf : pt.sentences.length = (pt.pages.map (fun p => p.sentences.length)).sum) :
    (isSyntheticTranscription t = false →
      (alignTextToAudio sim pt t).quality =
        jsRound ((((alignTextToAudio sim pt t).metadata.matchedCount : ℚ) /
          (pt.sentences.length : ℚ)) * 100) ∧
      0 ≤ (alignTextToAudio sim pt t).quality ∧
      (alignTextToAudio sim pt t).quality ≤ 100) ∧
    (isSyntheticTranscription t = true →
      (alignTextToAudio sim pt t).quality = 30 ∧
      (alignTextToAudio sim pt t).metadata.matchedCount = pt.sentences.length) := by
  constructor
  · intro hsyn
    have halign : alignTextToAudio sim pt t = alignFuzzy sim pt t := by
      unfold alignTextToAudio
      rw [hsyn]
      simp
    have hmc : (alignFuzzy sim pt t).metadata.matchedCount =
        (alignPagesCore sim t.sentences ⟨[], 0, 0⟩ pt.pages).1.matchCount := rfl
    have hq : (alignFuzzy sim pt t).quality =
        jsRound (if 0 < pt.sentences.length then
          (((alignPagesCore sim t.sentences ⟨[], 0, 0⟩ pt.pages).1.matchCount : ℚ) /
            (pt.sentences.length : ℚ)) * 100 else 0) := rfl
    have hbound : (alignPagesCore sim t.sentences ⟨[], 0, 0⟩ pt.pages).1.matchCount ≤
        pt.sentences.length := by
      have := alignPagesCore_count sim t.sentences pt.pages ⟨[], 0, 0⟩
      rw [hwf]
      simpa using this
    rw [halign, hq, hmc]
    by_cases hpos : 0 < pt.sentences.length
    · rw [if_pos hpos]
      set q : ℚ := (((alignPagesCore sim t.sentences ⟨[], 0, 0⟩ pt.pages).1.matchCount : ℚ) /
        (pt.sentences.length : ℚ)) * 100 with hqdef
      have hq0 : 0 ≤ q := by
        apply mul_nonneg _ (by norm_num)
        exact div_nonneg (Nat.cast_nonneg _) (Nat.cast_nonneg _)
      have hq100 : q ≤ 100 := by
        have hdiv : (((alignPagesCore sim t.sentences ⟨[], 0, 0⟩ pt.pages).1.matchCount : ℚ) /
            (pt.sentences.length : ℚ)) ≤ 1 := by
          rw [div_le_one (by exact_mod_cast hpos)]
          exact_mod_cast hbound
        calc q ≤ 1 * 100 := by
              rw [hqdef]
              exact mul_le_mul_of_nonneg_right hdiv (by norm_num)
          _ = 100 := by norm_num
      refine ⟨rfl, ?_, ?_⟩
      · exact Int.le_floor.mpr (by push_cast; linarith)
      · have : q + 1/2 < 101 := by linarith
        exact Int.lt_add_one_iff.mp (Int.floor_lt.mpr (by push_cast; linarith))
    · have hzero : pt.sentences.length = 0 := by omega
      rw [if_neg hpos, hzero]
      refine ⟨?_, ?_, ?_⟩
      · norm_num [jsRound]
      · norm_num [jsRound]
      · norm_num [jsRound]
  · intro hsyn
    have halign : alignTextToAudio sim pt t = createTimeBasedAlignment pt t := by
      unfold alignTextToAudio
      rw [hsyn]
      simp
    rw [halign]
    exact ⟨rfl, rfl⟩

set_option maxRecDepth 100000 in
/-- C1, witness: the fuzzy run on `ptW`/`trW` instantiating the amended claim. -/
theorem C1_witness :
    ptW.sentences.length = (ptW.pages.map (fun p => p.sentences.length)).sum ∧
    ((isSyntheticTranscription trW = false →
      (alignTextToAudio simExact ptW trW).quality =
        jsRound ((((alignTextToAudio simExact ptW trW).metadata.matchedCount : ℚ) /
          (ptW.sentences.length : ℚ)) * 100) ∧
      0 ≤ (alignTextToAudio simExact ptW trW).quality ∧
      (alignTextToAudio simExact ptW trW).quality ≤ 100) ∧
    (isSyntheticTranscription trW = true →
      (alignTextToAudio simExact ptW trW).quality = 30 ∧
      (alignTextToAudio simExact ptW trW).metadata.matchedCount = ptW.sentences.length)) :=
  ⟨by with_unfolding_all decide,
   C1_amended_quality simExact ptW trW (by with_unfolding_all decide)⟩

/-- C4: within one fuzzy alignment run, no transcript sentence index is
matched to more than one document sentence: the per-sentence `alignment`
values of the run (in document order) are pairwise distinct on their
transcript indices. -/
theorem C4_at_most_one_match (sim : String → String → ℚ) (pt : PdfText) (t : Transcription) :
    List.Pairwise DistinctMatch (alignFuzzyEntries sim pt t) :=
  (alignPagesCore_spec sim t.sentences pt.pages ⟨[], 0, 0⟩).2.2

/-- C10: every record of a fuzzy alignment run, before any interpolation,
either has no audio span and confidence 0, or an audio span and a confidence
at or above the 0.7 acceptance threshold. -/
theorem C10_confidence_dichotomy (sim : String → String → ℚ) (pt : PdfText)
    (t : Transcription) (r : AlignedSentence)
    (hr : r ∈ (alignFuzzyEntries sim pt t).map Prod.fst) :
    (r.audio = none ∧ r.confidence = 0) ∨ (r.audio ≠ none ∧ threshold ≤ r.confidence) := by
  obtain ⟨e, he, rfl⟩ := List.mem_map.mp hr
  have hok := ((alignPagesCore_spec sim t.sentences pt.pages ⟨[], 0, 0⟩).2.1 e he).1
  cases he2 : e.2 with
  | none => exact Or.inl ((hok.1) he2)
  | some a =>
    obtain ⟨haudio, hconf, hth⟩ := hok.2 a he2
    refine Or.inr ⟨?_, ?_⟩
    · rw [haudio]
      simp
    · rw [hconf]
      exact hth

set_option maxRecDepth 100000 in
/-- C10, witness: the concrete matched record of the `ptW`/`trW` run. -/
theorem C10_witness :
    rW ∈ (alignFuzzyEntries simExact ptW trW).map Prod.fst ∧
    ((rW.audio = none ∧ rW.confidence = 0) ∨
      (rW.audio ≠ none ∧ threshold ≤ rW.confidence)) :=
  ⟨by with_unfolding_all decide,
   C10_confidence_dichotomy simExact ptW trW rW (by with_unfolding_all decide)⟩

theorem jsOr_zero (a : ℚ) : jsOr a 0 = a := by
  unfold jsOr
  split
  · rename_i h
    rw [h]
  · rfl

/-- Total duration accumulated by `transcribeBook` (helper). -/
theorem transcribeBookAux_total :
    ∀ (l : List Chapter) (i : ℕ) (cum : ℚ),
      (transcribeBookAux i cum l).2 = cum + (l.map chapterDuration).sum := by
  intro l
  induction l with
  | nil => intro i cum; simp [transcribeBookAux]
  | cons c rest ih =>
    intro i cum
    have heq : (transcribeBookAux i cum (c :: rest)).2 =
        (transcribeBookAux (i + 1) (cum + chapterDuration c) rest).2 := rfl
    rw [heq, ih]
    simp only [List.map_cons, List.sum_cons]
    ring

/-- A synthetic chapter transcription always has positive duration (helper). -/
theorem createSyntheticTranscription_duration_pos (d : ℚ) (hd : 0 ≤ d) :
    0 < (createSyntheticTranscription d).duration := by
  show 0 < jsOr d 300
  unfold jsOr
  split
  · norm_num
  · rename_i h
    exact lt_of_le_of_ne hd (Ne.symm h)

/-- Justification of C3's positive-duration hypothesis (helper): a book whose
first chapter fell back to a synthetic transcription — the only way the
aligner's synthetic sniff can trigger — always aggregates to a positive
`totalDuration`. -/
theorem transcribeBook_synthetic_totalDuration_pos (c : Chapter) (rest : List Chapter)
    (d : ℚ) (hd : 0 ≤ d) (hc : c.transcript = createSyntheticTranscription d)
    (hcd : 0 ≤ c.duration_seconds)
    (hrest : ∀ x ∈ rest, 0 ≤ chapterDuration x) :
    0 < (transcribeBook (c :: rest)).totalDuration := by
  have htot : (transcribeBook (c :: rest)).totalDuration =
      chapterDuration c + (rest.map chapterDuration).sum := by
    show (transcribeBookAux 0 0 (c :: rest)).2 = _
    rw [transcribeBookAux_total]
    simp
  rw [htot]
  have hpos : 0 < chapterDuration c := by
    unfold chapterDuration jsOr
    split
    · rw [hc]
      exact createSyntheticTranscription_duration_pos d hd
    · rename_i h
      exact lt_of_le_of_ne hcd (Ne.symm h)
  have hsum : 0 ≤ (rest.map chapterDuration).sum :=
    List.sum_nonneg (fun x hx => by
      obtain ⟨y, hy, rfl⟩ := List.mem_map.mp hx
      exact hrest y hy)
  linarith

/-- The time-based sentence counter advances by the page length (helper). -/
theorem timeBasedPage_counter (t : Transcription) (avg : ℚ) (pn cnt : ℕ) :
    ∀ (l : List PdfSentence) (sIdx : ℕ),
      (timeBasedPage t avg pn cnt sIdx l).1 = sIdx + l.length := by
  intro l
  induction l with
  | nil => intro sIdx; simp [timeBasedPage]
  | cons s rest ih =>
    intro sIdx
    have heq : (timeBasedPage t avg pn cnt sIdx (s :: rest)).1 =
        (timeBasedPage t avg pn cnt (sIdx + 1) rest).1 := rfl
    rw [heq, ih]
    simp only [List.length_cons]
    omega

/-- Every time-based record carries confidence 0.3 and the audio span of its
(uniformly spaced) position (helper). -/
theorem timeBasedPage_mem (t : Transcription) (avg : ℚ) (pn cnt : ℕ) :
    ∀ (l : List PdfSentence) (sIdx : ℕ) (r : AlignedSentence),
      r ∈ (timeBasedPage t avg pn cnt sIdx l).2 →
      r.confidence = 3/10 ∧ ∃ j, sIdx ≤ j ∧ j < sIdx + l.length ∧
        ∃ sp, r.audio = some sp ∧ sp.globalStart = (j : ℚ) * avg := by
  intro l
  induction l with
  | nil => intro sIdx r hr; simp [timeBasedPage] at hr
  | cons s rest ih =>
    intro sIdx r hr
    have heq : (timeBasedPage t avg pn cnt sIdx (s :: rest)).2 =
        ({ id := "p" ++ toString pn ++ "s" ++ toString (s.index + 1), text := s.text,
           position := estimatePosition s.index cnt,
           audio := some ⟨timeBasedChapterIndex t.sentences ((sIdx : ℚ) * avg),
             (sIdx : ℚ) * avg, ((sIdx : ℚ) + 1) * avg, false⟩,
           confidence := 3/10 } : AlignedSentence) ::
          (timeBasedPage t avg pn cnt (sIdx + 1) rest).2 := rfl
    rw [heq] at hr
    rcases List.mem_cons.mp hr with rfl | hr'
    · exact ⟨rfl, sIdx, le_refl _, by simp,
        ⟨timeBasedChapterIndex t.sentences ((sIdx : ℚ) * avg),
          (sIdx : ℚ) * avg, ((sIdx : ℚ) + 1) * avg, false⟩, rfl, rfl⟩
    · obtain ⟨hc, j, hj1, hj2, hsp⟩ := ih (sIdx + 1) r hr'
      exact ⟨hc, j, by omega, by simp only [List.length_cons]; omega, hsp⟩

/-- Time-based records of one page are strictly ordered (helper). -/
theorem timeBasedPage_pairwise (t : Transcription) (avg : ℚ) (pn cnt : ℕ) (havg : 0 < avg) :
    ∀ (l : List PdfSentence) (sIdx : ℕ),
      List.Pairwise StrictStartOrder (timeBasedPage t avg pn cnt sIdx l).2 := by
  intro l
  induction l with
  | nil => intro sIdx; simp [timeBasedPage]
  | cons s rest ih =>
    intro sIdx
    have heq : (timeBasedPage t avg pn cnt sIdx (s :: rest)).2 =
        ({ id := "p" ++ toString pn ++ "s" ++ toString (s.index + 1), text := s.text,
           position := estimatePosition s.index cnt,
           audio := some ⟨timeBasedChapterIndex t.sentences ((sIdx : ℚ) * avg),
             (sIdx : ℚ) * avg, ((sIdx : ℚ) + 1) * avg, false⟩,
           confidence := 3/10 } : AlignedSentence) ::
          (timeBasedPage t avg pn cnt (sIdx + 1) rest).2 := rfl
    rw [heq]
    refine List.Pairwise.cons ?_ (ih (sIdx + 1))
    intro r hr sa sb hsa hsb
    obtain ⟨_, j, hj1, _, sp, hsp, hstart⟩ := timeBasedPage_mem t avg pn cnt rest (sIdx + 1) r hr
    simp only [Option.some.injEq] at hsa
    rw [hsp] at hsb
    simp only [Option.some.injEq] at hsb
    subst hsa
    subst hsb
    simp only [hstart]
    have hlt : (sIdx : ℚ) < (j : ℚ) := by exact_mod_cast (by omega : sIdx < j)
    exact mul_lt_mul_of_pos_right hlt havg

/-- Counter equation over the whole document (helper). -/
theorem timeBasedPages_counter (t : Transcription) (avg : ℚ) :
    ∀ (pgs : List PdfPage) (sIdx : ℕ),
      (timeBasedPages t avg sIdx pgs).1 =
        sIdx + (pgs.map (fun p => p.sentences.length)).sum := by
  intro pgs
  induction pgs with
  | nil => intro sIdx; simp [timeBasedPages]
  | cons p rest ih =>
    intro sIdx
    have heq : (timeBasedPages t avg sIdx (p :: rest)).1 =
        (timeBasedPages t avg
          (timeBasedPage t avg p.pageNumber p.sentences.length sIdx p.sentences).1 rest).1 := rfl
    rw [heq, ih, timeBasedPage_counter]
    simp only [List.map_cons, List.sum_cons]
    omega

/-- Record facts over the whole document (helper). -/
theorem timeBasedPages_mem (t : Transcription) (avg : ℚ) :
    ∀ (pgs : List PdfPage) (sIdx : ℕ) (r : AlignedSentence),
      r ∈ (((timeBasedPages t avg sIdx pgs).2.map (fun p => p.sentences)).flatten) →
      r.confidence = 3/10 ∧
      ∃ j, sIdx ≤ j ∧ j < sIdx + (pgs.map (fun p => p.sentences.length)).sum ∧
        ∃ sp, r.audio = some sp ∧ sp.globalStart = (j : ℚ) * avg := by
  intro pgs
  induction pgs with
  | nil => intro sIdx r hr; simp [timeBasedPages] at hr
  | cons p rest ih =>
    intro sIdx r hr
    have heq : (timeBasedPages t avg sIdx (p :: rest)).2 =
        (⟨p.pageNumber, (timeBasedPage t avg p.pageNumber p.sentences.length sIdx p.sentences).2⟩ :
          AlignedPage) ::
          (timeBasedPages t avg
            (timeBasedPage t avg p.pageNumber p.sentences.length sIdx p.sentences).1 rest).2 := rfl
    rw [heq] at hr
    simp only [List.map_cons, List.flatten_cons] at hr
    rcases List.mem_append.mp hr with hr' | hr'
    · obtain ⟨hc, j, hj1, hj2, hsp⟩ :=
        timeBasedPage_mem t avg p.pageNumber p.sentences.length p.sentences sIdx r hr'
      refine ⟨hc, j, hj1, ?_, hsp⟩
      simp only [List.map_cons, List.sum_cons]
      omega
    · rw [timeBasedPage_counter] at hr'
      obtain ⟨hc, j, hj1, hj2, hsp⟩ := ih (sIdx + p.sentences.length) r hr'
      refine ⟨hc, j, by omega, ?_, hsp⟩
      simp only [List.map_cons, List.sum_cons]
      omega

/-- Strict ordering of all time-based records in document order (helper). -/
theorem timeBasedPages_pairwise (t : Transcription) (avg : ℚ) (havg : 0 < avg) :
    ∀ (pgs : List PdfPage) (sIdx : ℕ),
      List.Pairwise StrictStartOrder
        (((timeBasedPages t avg sIdx pgs).2.map (fun p => p.sentences)).flatten) := by
  intro pgs
  induction pgs with
  | nil => intro sIdx; simp [timeBasedPages]
  | cons p rest ih =>
    intro sIdx
    have heq : (timeBasedPages t avg sIdx (p :: rest)).2 =
        (⟨p.pageNumber, (timeBasedPage t avg p.pageNumber p.sentences.length sIdx p.sentences).2⟩ :
          AlignedPage) ::
          (timeBasedPages t avg
            (timeBasedPage t avg p.pageNumber p.sentences.length sIdx p.sentences).1 rest).2 := rfl
    rw [heq]
    simp only [List.map_cons, List.flatten_cons]
    rw [List.pairwise_append]
    refine ⟨timeBasedPage_pairwise t avg p.pageNumber p.sentences.length havg p.sentences sIdx,
      ih _, ?_⟩
    intro r1 hr1 r2 hr2 sa sb hsa hsb
    obtain ⟨_, j1, hj11, hj12, sp1, hsp1, hs1⟩ :=
      timeBasedPage_mem t avg p.pageNumber p.sentences.length p.sentences sIdx r1 hr1
    rw [timeBasedPage_counter] at hr2
    obtain ⟨_, j2, hj21, hj22, sp2, hsp2, hs2⟩ := timeBasedPages_mem t avg rest
      (sIdx + p.sentences.length) r2 hr2
    rw [hsp1] at hsa
    rw [hsp2] at hsb
    simp only [Option.some.injEq] at hsa hsb
    subst hsa
    subst hsb
    rw [hs1, hs2]
    have hlt : (j1 : ℚ) < (j2 : ℚ) := by exact_mod_cast (by omega : j1 < j2)
    exact mul_lt_mul_of_pos_right hlt havg

/-- C3: over a synthetic transcript (of positive total duration, as every
pipeline-produced synthetic transcript has), every record gets confidence
exactly 0.3 and a non-null audio span, the metadata is tagged
`alignmentType = "time-based"`, and `globalStart` strictly increases with
document-sentence order (page order, then in-page order). -/
theorem C3_time_based_alignment (sim : String → String → ℚ) (pt : PdfText) (t : Transcription)
    (hsyn : isSyntheticTranscription t = true)
    (hdur : 0 < t.totalDuration)
    (hwf : pt.sentences.length = (pt.pages.map (fun p => p.sentences.length)).sum) :
    (alignTextToAudio sim pt t).metadata.alignmentType = some "time-based" ∧
    (∀ p ∈ (alignTextToAudio sim pt t).pages, ∀ rec ∈ p.sentences,
      rec.confidence = 3/10 ∧ rec.audio ≠ none) ∧
    List.Pairwise StrictStartOrder
      (((alignTextToAudio sim pt t).pages.map (fun p => p.sentences)).flatten) := by
  have halign : alignTextToAudio sim pt t = createTimeBasedAlignment pt t := by
    unfold alignTextToAudio
    rw [hsyn]
    simp
  have hpages : (createTimeBasedAlignment pt t).pages =
      (timeBasedPages t (jsOr t.totalDuration 0 / (pt.sentences.length : ℚ)) 0 pt.pages).2 := rfl
  have hmemrec : ∀ p ∈ (createTimeBasedAlignment pt t).pages, ∀ rec ∈ p.sentences,
      rec ∈ (((createTimeBasedAlignment pt t).pages.map (fun p => p.sentences)).flatten) := by
    intro p hp rec hrec
    exact List.mem_flatten.mpr ⟨p.sentences, List.mem_map.mpr ⟨p, hp, rfl⟩, hrec⟩
  rw [halign]
  by_cases hpos : 0 < pt.sentences.length
  · have havg : 0 < jsOr t.totalDuration 0 / (pt.sentences.length : ℚ) := by
      rw [jsOr_zero]
      exact div_pos hdur (by exact_mod_cast hpos)
    refine ⟨rfl, ?_, ?_⟩
    · intro p hp rec hrec
      have hmem := hmemrec p hp rec hrec
      rw [hpages] at hmem
      obtain ⟨hc, _, _, _, sp, hsp, _⟩ := timeBasedPages_mem t _ pt.pages 0 rec hmem
      exact ⟨hc, by rw [hsp]; simp⟩
    · rw [hpages]
      exact timeBasedPages_pairwise t _ havg pt.pages 0
  · have hsum : (pt.pages.map (fun p => p.sentences.length)).sum = 0 := by omega
    have hempty : ∀ rec : AlignedSentence,
        rec ∉ (((createTimeBasedAlignment pt t).pages.map (fun p => p.sentences)).flatten) := by
      intro rec hmem
      rw [hpages] at hmem
      obtain ⟨_, j, hj1, hj2, _⟩ := timeBasedPages_mem t _ pt.pages 0 rec hmem
      omega
    refine ⟨rfl, ?_, ?_⟩
    · intro p hp rec hrec
      exact absurd (hmemrec p hp rec hrec) (hempty rec)
    · have hnil : (((createTimeBasedAlignment pt t).pages.map (fun p => p.sentences)).flatten) =
          [] := List.eq_nil_iff_forall_not_mem.mpr hempty
      rw [hnil]
      exact List.Pairwise.nil

set_option maxRecDepth 100000 in
/-- C3, witness: the synthetic run on `ptB`/`trS`. -/
theorem C3_witness :
    isSyntheticTranscription trS = true ∧ 0 < trS.totalDuration ∧
    ptB.sentences.length = (ptB.pages.map (fun p => p.sentences.length)).sum ∧
    ((alignTextToAudio simExact ptB trS).metadata.alignmentType = some "time-based" ∧
     (∀ p ∈ (alignTextToAudio simExact ptB trS).pages, ∀ rec ∈ p.sentences,
       rec.confidence = 3/10 ∧ rec.audio ≠ none) ∧
     List.Pairwise StrictStartOrder
       (((alignTextToAudio simExact ptB trS).pages.map (fun p => p.sentences)).flatten)) :=
  ⟨by with_unfolding_all decide, by with_unfolding_all decide, by with_unfolding_all decide,
   C3_time_based_alignment simExact ptB trS (by with_unfolding_all decide)
     (by with_unfolding_all decide) (by with_unfolding_all decide)⟩

/-- The reset loop of `resumePendingJobs` as one map over the table (helper). -/
theorem foldl_resetJobById (js : List JobRow) (db : List JobRow) :
    js.foldl (fun acc j => resetJobById acc j.id) db =
      db.map (fun r => if js.any (fun j => j.id = r.id) then
        { r with status := "pending", progress := 0, error_message := none } else r) := by
  induction js generalizing db with
  | nil =>
    simp only [List.foldl_nil, List.any_nil, if_neg Bool.false_ne_true]
    exact (List.map_id' _).symm
  | cons j rest ih =>
    rw [List.foldl_cons, ih (resetJobById db j.id)]
    have h1 : resetJobById db j.id = db.map (fun r =>
        if r.id = j.id then { r with status := "pending", progress := 0, error_message := none }
        else r) := rfl
    rw [h1, List.map_map]
    congr 1
    funext r
    by_cases hid : r.id = j.id
    · simp only [Function.comp_apply, if_pos hid, List.any_cons]
      have hj : (j.id = r.id) = True := by simp [hid]
      simp [hj]
    · simp only [Function.comp_apply, if_neg hid, List.any_cons]
      have hj : decide (j.id = r.id) = false := by
        simp
        exact fun h => hid h.symm
      simp only [hj, Bool.false_or]

/-- Behavior of the shared `resumePendingJobs` shape (helper): a row in an
active status is re-enqueued exactly once and reset to pending/0/no-error; a
row in any other status is not enqueued. -/
theorem resumePendingJobsOn_spec (active : List String) (db : List JobRow)
    (hnd : (db.map (fun r => r.id)).Nodup) (r : JobRow) (hr : r ∈ db) :
    (r.status ∈ active →
      ((resumePendingJobsOn active db).2.count r.id = 1 ∧
       { r with status := "pending", progress := 0, error_message := none } ∈
         (resumePendingJobsOn active db).1)) ∧
    (r.status ∉ active → r.id ∉ (resumePendingJobsOn active db).2) := by
  constructor
  · intro hact
    have hrp : r ∈ db.filter (fun x => decide (x.status ∈ active)) :=
      List.mem_filter.mpr ⟨hr, by simpa using hact⟩
    constructor
    · have hsub : List.Sublist
          ((db.filter (fun x => decide (x.status ∈ active))).map (fun x => x.id))
          (db.map (fun x => x.id)) := (List.filter_sublist db).map _
      have hnd' : ((db.filter (fun x => decide (x.status ∈ active))).map (fun x => x.id)).Nodup :=
        hnd.sublist hsub
      have hmem : r.id ∈ (db.filter (fun x => decide (x.status ∈ active))).map (fun x => x.id) :=
        List.mem_map.mpr ⟨r, hrp, rfl⟩
      exact List.count_eq_one_of_mem hnd' hmem
    · rw [show (resumePendingJobsOn active db).1 =
          (db.filter (fun x => decide (x.status ∈ active))).foldl
            (fun acc j => resetJobById acc j.id) db from rfl,
        foldl_resetJobById]
      apply List.mem_map.mpr
      refine ⟨r, hr, ?_⟩
      rw [if_pos]
      exact List.any_eq_true.mpr ⟨r, hrp, by simp⟩
  · intro hact hmem
    obtain ⟨j, hj, hjid⟩ := List.mem_map.mp hmem
    have hjdb : j ∈ db := List.mem_of_mem_filter hj
    have hjact : j.status ∈ active := by simpa using (List.mem_filter.mp hj).2
    have hjr : j = r := List.inj_on_of_nodup_map hnd hjdb hr hjid
    exact hact (hjr ▸ hjact)

/-- C7: at restart, both queues' `resumePendingJobs` re-enqueue every job in a
non-terminal status exactly once, resetting it to status `pending`, progress
0 and no error message, and never re-enqueue a job in a terminal status. -/
theorem C7_resume_pending_jobs (db : List JobRow)
    (hnd : (db.map (fun r => r.id)).Nodup) (r : JobRow) (hr : r ∈ db) :
    (r.status ∈ pdfActiveStatuses →
      ((resumePendingJobsPdf db).2.count r.id = 1 ∧
       { r with status := "pending", progress := 0, error_message := none } ∈
         (resumePendingJobsPdf db).1)) ∧
    (r.status ∈ transcriptionActiveStatuses →
      ((resumePendingJobsTranscription db).2.count r.id = 1 ∧
       { r with status := "pending", progress := 0, error_message := none } ∈
         (resumePendingJobsTranscription db).1)) ∧
    (r.status ∈ terminalStatuses →
      r.id ∉ (resumePendingJobsPdf db).2 ∧
      r.id ∉ (resumePendingJobsTranscription db).2) := by
  refine ⟨(resumePendingJobsOn_spec pdfActiveStatuses db hnd r hr).1,
    (resumePendingJobsOn_spec transcriptionActiveStatuses db hnd r hr).1,
    fun hterm => ⟨?_, ?_⟩⟩
  · apply (resumePendingJobsOn_spec pdfActiveStatuses db hnd r hr).2
    simp only [terminalStatuses, List.mem_cons, List.not_mem_nil, or_false] at hterm
    rcases hterm with h | h | h <;> rw [h] <;> simp [pdfActiveStatuses]
  · apply (resumePendingJobsOn_spec transcriptionActiveStatuses db hnd r hr).2
    simp only [terminalStatuses, List.mem_cons, List.not_mem_nil, or_false] at hterm
    rcases hterm with h | h | h <;> rw [h] <;> simp [transcriptionActiveStatuses]

/-- C7, witness: a table with one interrupted (`transcribing`) and one
`completed` job. -/
theorem C7_witness :
    ((dbW.map (fun r => r.id)).Nodup ∧ jobW ∈ dbW) ∧
    ((jobW.status ∈ pdfActiveStatuses →
      ((resumePendingJobsPdf dbW).2.count jobW.id = 1 ∧
       { jobW with status := "pending", progress := 0, error_message := none } ∈
         (resumePendingJobsPdf dbW).1)) ∧
    (jobW.status ∈ transcriptionActiveStatuses →
      ((resumePendingJobsTranscription dbW).2.count jobW.id = 1 ∧
       { jobW with status := "pending", progress := 0, error_message := none } ∈
         (resumePendingJobsTranscription dbW).1)) ∧
    (jobW.status ∈ terminalStatuses →
      jobW.id ∉ (resumePendingJobsPdf dbW).2 ∧
      jobW.id ∉ (resumePendingJobsTranscription dbW).2)) :=
  ⟨⟨by decide, by decide⟩,
   C7_resume_pending_jobs dbW (by decide) jobW (by decide)⟩

/-- C9, counterexample: a document whose text holds 99 alphanumeric
characters (under the claimed ~100 threshold) is still classified as
text-bearing, because the code thresholds on the whitespace-collapsed total
character count (114 here), not on alphanumeric characters. -/
theorem C9_counterexample :
    alphanumericCount scannedPageText = 99 ∧
    (extractPdfText tok0 [scannedPageText] 1).hasText = true := by
  with_unfolding_all decide

theorem updateJobStatus_cancelledJobs (s : PQState) (jobId : ℕ) (st : String)
    (p : Option ℕ) (e : Option String) :
    (updateJobStatus s jobId st p e).cancelledJobs = s.cancelledJobs := rfl

/-- Path taken by `processNext` when extraction finds no text (helper). -/
theorem processNext_noText (s0 : PQState) (jobId : ℕ) (cbs : List ℕ)
    (hc : jobId ∉ s0.cancelledJobs) :
    processNext (.noCancel cbs) jobId false s0 =
      updateJobStatus (updateJobStatus { s0 with queue := s0.queue.drop 1 }
        jobId "extracting" (some 10) none) jobId "failed" none
        (some "PDF appears to be scanned/image-based. OCR support coming in Phase 2.") := by
  delta processNext
  rw [if_neg hc]
  dsimp only [updateJobStatus_cancelledJobs]
  rw [if_neg hc]
  rfl

/-- C9, amended: when the whitespace-collapsed full text has at most 100
characters, extraction classifies the document as image-only (no pages, no
sentences), and the worker then fails the job with the user-facing
scanned/image-based message without re-enqueueing it. -/
theorem C9_amended_image_only (tok : String → List String) (pageTexts : List String)
    (total : ℕ)
    (hlen : (collapseWsTrim (joinSep " " pageTexts)).length ≤ 100) :
    (extractPdfText tok pageTexts total).hasText = false ∧
    (extractPdfText tok pageTexts total).pages = [] ∧
    (extractPdfText tok pageTexts total).sentences = [] ∧
    ∀ (s0 : PQState) (jobId : ℕ) (cbs : List ℕ),
      jobId ∉ s0.cancelledJobs →
      jobId ∉ s0.queue.drop 1 →
      (∀ row ∈ (processNext (.noCancel cbs) jobId
          (extractPdfText tok pageTexts total).hasText s0).jobs,
        row.id = jobId → row.status = "failed" ∧ row.error_message =
          some "PDF appears to be scanned/image-based. OCR support coming in Phase 2.") ∧
      jobId ∉ (processNext (.noCancel cbs) jobId
        (extractPdfText tok pageTexts total).hasText s0).queue := by
  have hext : extractPdfText tok pageTexts total =
      { hasText := false, pageCount := if total = 0 then 1 else total,
        pages := [], sentences := [] } := by
    simp only [extractPdfText]
    rw [if_neg (by omega)]
  rw [hext]
  refine ⟨rfl, rfl, rfl, ?_⟩
  intro s0 jobId cbs hc hq
  rw [processNext_noText s0 jobId cbs hc]
  constructor
  · intro row hrow hid
    simp only [updateJobStatus, dbSetStatus] at hrow
    obtain ⟨r1, hr1, hr1eq⟩ := List.mem_map.mp hrow
    by_cases h1 : r1.id = jobId
    · rw [if_pos h1] at hr1eq
      rw [← hr1eq]
      exact ⟨rfl, rfl⟩
    · rw [if_neg h1] at hr1eq
      rw [← hr1eq] at hid
      exact absurd hid h1
  · simpa [updateJobStatus, dbSetStatus] using hq

theorem jsTrim_empty : jsTrim "" = "" := rfl

theorem mem_if_singleton {α : Type} {P : Prop} [Decidable P] {y out : α}
    (h : out ∈ (if P then [y] else [])) : out = y := by
  split at h
  · exact List.mem_singleton.mp h
  · exact absurd h (List.not_mem_nil out)

/-- Sentence spans produced by the whisper fold are well-ordered (helper):
under well-formed segments, every emitted sentence has nonnegative start and
start at or before end. -/
theorem parseWhisperOutputAux_spec :
    ∀ (segs : List WSegment) (cur : TSentence),
      (∀ s ∈ segs, 0 ≤ s.start ∧ s.start ≤ s.«end») →
      List.Chain' (fun a b => a.«end» ≤ b.start) segs →
      (cur.text ≠ "" → 0 ≤ cur.start ∧ cur.start ≤ cur.«end» ∧
        ∀ s0 ∈ segs.head?, cur.«end» ≤ s0.start) →
      ∀ out ∈ parseWhisperOutputAux cur segs, 0 ≤ out.start ∧ out.start ≤ out.«end» := by
  intro segs
  induction segs with
  | nil =>
    intro cur _ _ hcur out hout
    simp only [parseWhisperOutputAux] at hout
    split at hout
    · rename_i htrim
      have hct : cur.text ≠ "" := by
        intro h
        rw [h, jsTrim_empty] at htrim
        exact htrim rfl
      obtain ⟨h1, h2, _⟩ := hcur hct
      rcases List.mem_singleton.mp hout with rfl
      exact ⟨h1, h2⟩
    · exact absurd hout (List.not_mem_nil out)
  | cons seg rest ih =>
    intro cur hall hchain hcur out hout
    obtain ⟨hhead, hchain'⟩ := List.chain'_cons'.mp hchain
    have hseg := hall seg (List.mem_cons_self seg rest)
    have hrest : ∀ s ∈ rest, 0 ≤ s.start ∧ s.start ≤ s.«end» :=
      fun s hs => hall s (List.mem_cons_of_mem seg hs)
    have hstart' : 0 ≤ (if cur.text = "" then seg.start else cur.start) ∧
        (if cur.text = "" then seg.start else cur.start) ≤ seg.«end» := by
      by_cases hct : cur.text = ""
      · rw [if_pos hct]
        exact hseg
      · rw [if_neg hct]
        obtain ⟨h1, h2, h3⟩ := hcur hct
        have h4 : cur.«end» ≤ seg.start := h3 seg rfl
        exact ⟨h1, by linarith [hseg.1, hseg.2]⟩
    have heq : parseWhisperOutputAux cur (seg :: rest) =
        (let cur' : TSentence :=
          ⟨cur.text ++ (if cur.text ≠ "" then " " else "") ++ seg.speech,
           if cur.text = "" then seg.start else cur.start, seg.«end»⟩
         if isSentenceEnd seg.speech then
           (if jsTrim cur'.text ≠ "" then [⟨jsTrim cur'.text, cur'.start, cur'.«end»⟩]
            else []) ++ parseWhisperOutputAux ⟨"", 0, 0⟩ rest
         else parseWhisperOutputAux cur' rest) := rfl
    rw [heq] at hout
    dsimp only at hout
    by_cases hse : isSentenceEnd seg.speech
    · rw [if_pos hse] at hout
      rcases List.mem_append.mp hout with hflush | hrec
      · rw [mem_if_singleton hflush]
        exact hstart'
      · exact ih ⟨"", 0, 0⟩ hrest hchain' (fun h => absurd rfl h) out hrec
    · rw [if_neg hse] at hout
      refine ih _ hrest hchain' ?_ out hout
      intro _
      exact ⟨hstart'.1, hstart'.2, fun s0 hs0 => hhead s0 hs0⟩

/-- Every sentence of `parseWhisperOutput` on well-formed segments has a
nonnegative start at or before its end (helper). -/
theorem parseWhisperOutput_spec (segs : List WSegment) (hwf : SegmentsWellFormed segs) :
    ∀ out ∈ parseWhisperOutput segs, 0 ≤ out.start ∧ out.start ≤ out.«end» :=
  parseWhisperOutputAux_spec segs ⟨"", 0, 0⟩ hwf.1 hwf.2 (fun h => absurd rfl h)

/-- Origin of every sentence `transcribeBook` emits (helper): it copies some
chapter sentence's chapter-relative times and offsets them by the cumulative
duration of the preceding chapters. -/
theorem transcribeBookAux_mem :
    ∀ (chapters : List Chapter) (i : ℕ) (cum : ℚ),
      ∀ x ∈ (transcribeBookAux i cum chapters).1,
        ∃ c s, c ∈ chapters ∧ s ∈ c.transcript.sentences ∧
          x.start = s.start ∧ x.«end» = s.«end» ∧
          ∃ p, p < chapters.length ∧ x.chapterIndex = i + p ∧
            x.globalStart = cum + ((chapters.take p).map chapterDuration).sum + s.start := by
  intro chapters
  induction chapters with
  | nil => intro i cum x hx; simp [transcribeBookAux] at hx
  | cons c rest ih =>
    intro i cum x hx
    have heq : (transcribeBookAux i cum (c :: rest)).1 =
        c.transcript.sentences.map (fun s =>
          ({ text := s.text, start := s.start, «end» := s.«end», chapterIndex := i,
             globalStart := cum + s.start, globalEnd := cum + s.«end» } : ASentence)) ++
          (transcribeBookAux (i + 1) (cum + chapterDuration c) rest).1 := rfl
    rw [heq] at hx
    rcases List.mem_append.mp hx with hx' | hx'
    · obtain ⟨s, hs, hxs⟩ := List.mem_map.mp hx'
      refine ⟨c, s, List.mem_cons_self c rest, hs, ?_, ?_, 0, by simp, ?_, ?_⟩ <;>
        rw [← hxs] <;> simp
    · obtain ⟨c', s, hc', hsmem, hxs, hxe, p, hp, hpi, hpg⟩ :=
        ih (i + 1) (cum + chapterDuration c) x hx'
      refine ⟨c', s, List.mem_cons_of_mem c hc', hsmem, hxs, hxe, p + 1, ?_, ?_, ?_⟩
      · simpa using Nat.succ_lt_succ hp
      · omega
      · rw [hpg]
        simp only [List.take_succ_cons, List.map_cons, List.sum_cons]
        ring

/-- C8: assuming every chapter transcription comes from well-formed whisper
segments (end at or after start, chronological order, nonnegative times),
every sentence `transcribeBook` produces has start at or before end, and
every sentence of chapter j — its first one in particular — has a
`globalStart` at or above the summed effective durations of chapters 0..j-1. -/
theorem C8_transcription_invariants (chapters : List Chapter)
    (h : ∀ c ∈ chapters, ∃ segs, SegmentsWellFormed segs ∧
      c.transcript.sentences = parseWhisperOutput segs) :
    (∀ x ∈ (transcribeBook chapters).sentences, x.start ≤ x.«end») ∧
    (∀ x ∈ (transcribeBook chapters).sentences,
      ((chapters.take x.chapterIndex).map chapterDuration).sum ≤ x.globalStart) := by
  have hs : ∀ c ∈ chapters, ∀ s ∈ c.transcript.sentences,
      0 ≤ s.start ∧ s.start ≤ s.«end» := by
    intro c hc s hsmem
    obtain ⟨segs, hwf, heq⟩ := h c hc
    rw [heq] at hsmem
    exact parseWhisperOutput_spec segs hwf s hsmem
  have hsent : (transcribeBook chapters).sentences = (transcribeBookAux 0 0 chapters).1 := rfl
  constructor
  · intro x hx
    rw [hsent] at hx
    obtain ⟨c, s, hc, hsmem, hxs, hxe, _⟩ := transcribeBookAux_mem chapters 0 0 x hx
    rw [hxs, hxe]
    exact (hs c hc s hsmem).2
  · intro x hx
    rw [hsent] at hx
    obtain ⟨c, s, hc, hsmem, _, _, p, _, hpi, hpg⟩ := transcribeBookAux_mem chapters 0 0 x hx
    have hp0 : x.chapterIndex = p := by omega
    rw [hp0, hpg]
    have := (hs c hc s hsmem).1
    linarith

set_option maxRecDepth 100000 in
/-- C8, witness: the two-chapter book `chW` built from whisper segments. -/
theorem C8_witness :
    (∀ c ∈ chW, ∃ segs, SegmentsWellFormed segs ∧
      c.transcript.sentences = parseWhisperOutput segs) ∧
    ((∀ x ∈ (transcribeBook chW).sentences, x.start ≤ x.«end») ∧
     (∀ x ∈ (transcribeBook chW).sentences,
       ((chW.take x.chapterIndex).map chapterDuration).sum ≤ x.globalStart)) := by
  have hhyp : ∀ c ∈ chW, ∃ segs, SegmentsWellFormed segs ∧
      c.transcript.sentences = parseWhisperOutput segs := by
    intro c hc
    rcases List.mem_cons.mp hc with rfl | hc'
    · refine ⟨ch0segs, ⟨by with_unfolding_all decide, ?_⟩, rfl⟩
      norm_num [ch0segs, List.chain'_cons, List.chain'_singleton]
    · rcases List.mem_cons.mp hc' with rfl | hc''
      · refine ⟨ch1segs, ⟨by with_unfolding_all decide, ?_⟩, rfl⟩
        norm_num [ch1segs, List.chain'_singleton]
      · exact absurd hc'' (List.not_mem_nil c)
  exact ⟨hhyp, C8_transcription_invariants chW hhyp⟩

set_option maxRecDepth 100000 in
/-- C9, witness: a one-page document whose text is 50 characters long. -/
theorem C9_witness :
    (collapseWsTrim (joinSep " " [shortPageText])).length ≤ 100 ∧
    ((extractPdfText tok0 [shortPageText] 1).hasText = false ∧
     (extractPdfText tok0 [shortPageText] 1).pages = [] ∧
     (extractPdfText tok0 [shortPageText] 1).sentences = [] ∧
     ∀ (s0 : PQState) (jobId : ℕ) (cbs : List ℕ),
       jobId ∉ s0.cancelledJobs →
       jobId ∉ s0.queue.drop 1 →
       (∀ row ∈ (processNext (.noCancel cbs) jobId
           (extractPdfText tok0 [shortPageText] 1).hasText s0).jobs,
         row.id = jobId → row.status = "failed" ∧ row.error_message =
           some "PDF appears to be scanned/image-based. OCR support coming in Phase 2.") ∧
       jobId ∉ (processNext (.noCancel cbs) jobId
         (extractPdfText tok0 [shortPageText] 1).hasText s0).queue) :=
  ⟨by with_unfolding_all decide,
   C9_amended_image_only tok0 [shortPageText] 1 (by with_unfolding_all decide)⟩

end AudiobookNook
